import Mathlib

/-!
Verification of the photog media-indexing and thumbnail-caching core.

The Go source under `internal/thumbnail`, `internal/indexer` and
`internal/database` is shallowly embedded: pure functions become Lean
functions, filesystem / database / process state becomes explicit state
passing, and the outcomes of external effects (image decoding, ffmpeg,
SQLite queries, `os.Stat`) are supplied as oracle parameters, since the
embedded code only branches on their success or failure.
-/

namespace Photog

/-! ### Thumbnail cache (`internal/thumbnail/thumbnail.go`) -/

namespace Thumb

/-- A thumbnail size preset (`Size` in the source is a string type with
constants `"sm"`, `"md"`, `"lg"`). -/
abbrev Size := String

def Small : Size := "sm"
def Medium : Size := "md"
def Large : Size := "lg"

/-- `thumbVersion` constant from the source: embedded into cache filenames;
bumping it invalidates all existing cached thumbnails. -/
def thumbVersion : String := "v2"

/-- Environment of a `Generator`: the cache directory and the hex-encoded
truncated SHA-256 used for cache keys.  `hashHex p` models
`fmt.Sprintf("%x", sha256.Sum256([]byte(p))[:16])` (a pure function of the
path supplied by Go's standard library, kept abstract here). -/
structure Env where
  cacheDir : String
  hashHex : String → String

/-- `thumbPath` with the version constant exposed as a parameter, so that
"changing only the version constant" can be quantified over.  Mirrors:
`filepath.Join(g.cacheDir, hashStr[:2], hashStr[2:4],
fmt.Sprintf("%s_%s_%s.webp", hashStr, size, thumbVersion))`;
`filepath.Join` is modelled as interposing `"/"`. -/
def thumbPathV (env : Env) (version : String) (photoPath : String) (size : Size) : String :=
  let hashStr := env.hashHex photoPath
  env.cacheDir ++ "/" ++ hashStr.take 2 ++ "/" ++ (hashStr.drop 2).take 2 ++ "/"
    ++ hashStr ++ "_" ++ size ++ "_" ++ version ++ ".webp"

/-- `thumbPath` as in the source, with the version fixed to `thumbVersion`. -/
def thumbPath (env : Env) (photoPath : String) (size : Size) : String :=
  thumbPathV env thumbVersion photoPath size

/-- The set of files present in the thumbnail cache directory, as a list of
paths (set semantics). -/
abbrev FS := List String

/-- Outcome oracle for `generate`: whether the open/decode/resize/encode
pipeline succeeds for a given source path.  On failure the destination file
is not left behind (`os.Remove` on encode failure), so the filesystem is
unchanged. -/
structure GenOracle where
  genOk : String → Bool

/-- `GetOrCreate`: returns the cached path if the cache file exists,
otherwise runs `generate`.  Result: (returned value, filesystem after the
call, number of `generate` invocations performed). -/
def GetOrCreate (env : Env) (o : GenOracle) (fs : FS) (photoPath : String) (size : Size) :
    Except String String × FS × Nat :=
  let tp := thumbPath env photoPath size
  if tp ∈ fs then
    (.ok tp, fs, 0)
  else if o.genOk photoPath then
    (.ok tp, tp :: fs, 1)
  else
    (.error "generate thumbnail", fs, 1)

/-- Distinguishable failures of `GetOrCreateVideo`, one per `return`
statement with an error in the source. -/
inductive VidErr where
  | ffmpegNotAvailable
  | mkdirFail
  | ffmpegTimeout
  | ffmpegFailed
  | openFrameFail
  | createFail
  | encodeFail
deriving DecidableEq, Repr

/-- Result of one ffmpeg frame-extraction invocation. -/
inductive Extract where
  | ok
  | timedOut
  | failed
deriving DecidableEq, Repr

/-- Oracle for the effects of the video thumbnail pipeline on one path:
ffmpeg availability, `os.MkdirAll`, the two ffmpeg attempts (at 1s and at
0s), decoding the extracted frame, creating the output file, and webp
encoding. -/
structure VidOracle where
  ffmpegAvailable : Bool
  mkdirOk : Bool
  extract1 : Extract
  extract2 : Extract
  decodeOk : Bool
  createOk : Bool
  encodeOk : Bool

/-- The tail of `GetOrCreateVideo` after a frame has been extracted:
open the frame, `imaging.Fit`, create the output, encode webp.  On encode
failure the partially written file is removed. -/
def videoEncode (v : VidOracle) (fs : FS) (tp : String) : Except VidErr String × FS :=
  if v.decodeOk then
    if v.createOk then
      if v.encodeOk then (.ok tp, tp :: fs)
      else (.error .encodeFail, fs)
    else (.error .createFail, fs)
  else (.error .openFrameFail, fs)

/-- `GetOrCreateVideo`: the cache existence check comes first, then the
ffmpeg availability check, then directory creation, frame extraction with
one retry, and the shared encode path. -/
def GetOrCreateVideo (env : Env) (v : VidOracle) (fs : FS) (videoPath : String) (size : Size) :
    Except VidErr String × FS :=
  let tp := thumbPath env videoPath size
  if tp ∈ fs then
    (.ok tp, fs)
  else if v.ffmpegAvailable = false then
    (.error .ffmpegNotAvailable, fs)
  else if v.mkdirOk = false then
    (.error .mkdirFail, fs)
  else
    match v.extract1 with
    | .timedOut => (.error .ffmpegTimeout, fs)
    | .ok => videoEncode v fs tp
    | .failed =>
      match v.extract2 with
      | .timedOut => (.error .ffmpegTimeout, fs)
      | .failed => (.error .ffmpegFailed, fs)
      | .ok => videoEncode v fs tp

/-- `Exists`: pure existence check. -/
def «Exists» (env : Env) (fs : FS) (photoPath : String) (size : Size) : Bool :=
  decide (thumbPath env photoPath size ∈ fs)

/-- Concrete generator environment used by closed witness instances. -/
def wEnv : Env := ⟨"cache", fun _ => "0123456789abcdef0123456789abcdef"⟩

/-- Generation oracle that always succeeds, for witnesses. -/
def wGen : GenOracle := ⟨fun _ => true⟩

/-- Filesystem after a successful first `GetOrCreate` on `"x.jpg"`. -/
def wFs1 : FS := [thumbPath wEnv "x.jpg" "sm"]

/-- Video oracle with ffmpeg missing, for witnesses. -/
def wVidNoFF : VidOracle := ⟨false, true, .ok, .ok, true, true, true⟩

end Thumb

/-! ### Metadata catalog (`internal/database/database.go`, `internal/models/photo.go`) -/

namespace DB

/-- A capture timestamp.  `year`/`month` mirror the fields that
`strftime("%Y-%m", taken_at)` and `Format("2006-01")` extract; `rest`
packs the remainder (day and time of day), which only matters for
ordering within a month. -/
structure DateTime where
  year : Nat
  month : Nat
  rest : Nat
deriving DecidableEq, Repr

/-- A calendar-month key, the `(year, month)` pair denoted by a
`"YYYY-MM"` string in the source. -/
abbrev MonthKey := Nat × Nat

/-- Strict ordering of month keys: lexicographic on `(year, month)`,
which is exactly how `"YYYY-MM"` strings compare. -/
def mkLt (a b : MonthKey) : Prop := a.1 < b.1 ∨ (a.1 = b.1 ∧ a.2 < b.2)

/-- Reflexive closure of `mkLt`. -/
def mkLe (a b : MonthKey) : Prop := mkLt a b ∨ a = b

instance : DecidableRel mkLt := fun a b =>
  decidable_of_iff (a.1 < b.1 ∨ (a.1 = b.1 ∧ a.2 < b.2)) Iff.rfl

instance : DecidableRel mkLe := fun a b =>
  decidable_of_iff (mkLt a b ∨ a = b) Iff.rfl

/-- The month key of a timestamp. -/
def dtKey (t : DateTime) : MonthKey := (t.year, t.month)

/-- Chronological order on timestamps: month key first, then the rest.
This is the order `ORDER BY taken_at` sorts by. -/
def dtLe (a b : DateTime) : Prop :=
  mkLt (dtKey a) (dtKey b) ∨ (dtKey a = dtKey b ∧ a.rest ≤ b.rest)

instance : DecidableRel dtLe := fun a b =>
  decidable_of_iff (mkLt (dtKey a) (dtKey b) ∨ (dtKey a = dtKey b ∧ a.rest ≤ b.rest)) Iff.rfl

/-- `models.Photo`: one catalog record.  `duration` is in whole seconds
here (the indexer never sets it, so only its default 0 is observable). -/
structure Photo where
  id : Nat
  path : String
  filename : String
  takenAt : DateTime
  width : Nat
  height : Nat
  orientation : Nat
  mediaType : String
  fileSize : Nat
  duration : Nat
  thumbPath : String
  indexedAt : DateTime
deriving DecidableEq, Repr

/-- English month names, as produced by Go's `Format("January 2006")`. -/
def monthName (m : Nat) : String :=
  match m with
  | 1 => "January" | 2 => "February" | 3 => "March" | 4 => "April"
  | 5 => "May" | 6 => "June" | 7 => "July" | 8 => "August"
  | 9 => "September" | 10 => "October" | 11 => "November" | 12 => "December"
  | _ => ""

/-- The human label of a month bucket (`Format("January 2006")`). -/
def monthLabel (k : MonthKey) : String := monthName k.2 ++ " " ++ toString k.1

/-- Descending order on photos by capture time, the page order produced by
`ORDER BY taken_at DESC`. -/
def photoDesc (a b : Photo) : Prop := dtLe b.takenAt a.takenAt

instance : DecidableRel photoDesc := fun a b =>
  decidable_of_iff (dtLe b.takenAt a.takenAt) Iff.rfl

/-- `ORDER BY taken_at DESC` over the whole table. -/
def sortByTakenDesc (catalog : List Photo) : List Photo :=
  List.insertionSort photoDesc catalog

/-- `models.TimelineGroup`: one month group of a timeline page. -/
structure TimelineGroup where
  date : MonthKey
  label : String
  count : Nat
  photos : List Photo
deriving DecidableEq, Repr

/-- One iteration of the row loop in `GetTimeline`: look the photo's month
key up among the groups built so far (`groupMap`); append the photo and
bump the count if found, otherwise append a fresh group at the end
(`groupOrder` keeps first-encounter order). -/
def addPhoto (gs : List TimelineGroup) (p : Photo) : List TimelineGroup :=
  match gs with
  | [] => [⟨dtKey p.takenAt, monthLabel (dtKey p.takenAt), 1, [p]⟩]
  | g :: rest =>
    if g.date = dtKey p.takenAt then
      { g with count := g.count + 1, photos := g.photos ++ [p] } :: rest
    else
      g :: addPhoto rest p

/-- `models.TimelineResponse`. -/
structure TimelineResponse where
  groups : List TimelineGroup
  totalCount : Nat
  hasMore : Bool
deriving DecidableEq, Repr

/-- `GetTimeline(offset, limit)`: total count over the whole table, a
time-descending page of `limit` records starting at `offset`, grouped by
month in encounter order, and `has_more = offset+limit < total`. -/
def GetTimeline (catalog : List Photo) (offset limit : Nat) : TimelineResponse :=
  let totalCount := catalog.length
  let page := ((sortByTakenDesc catalog).drop offset).take limit
  { groups := page.foldl addPhoto []
    totalCount := totalCount
    hasMore := decide (offset + limit < totalCount) }

/-- `models.MonthBucket`. -/
structure MonthBucket where
  month : MonthKey
  label : String
  count : Nat
  cumulativeOffset : Nat
deriving DecidableEq, Repr

/-- Descending order on month keys, as in `ORDER BY month DESC`. -/
def mkGeKey (a b : MonthKey) : Prop := mkLe b a

instance : DecidableRel mkGeKey := fun a b => decidable_of_iff (mkLe b a) Iff.rfl

instance : IsTotal MonthKey mkGeKey :=
  ⟨fun a b => by
    rcases a with ⟨a1, a2⟩
    rcases b with ⟨b1, b2⟩
    simp only [mkGeKey, mkLe, mkLt, Prod.mk.injEq]
    omega⟩

instance : IsTrans MonthKey mkGeKey :=
  ⟨fun a b c hab hbc => by
    rcases a with ⟨a1, a2⟩
    rcases b with ⟨b1, b2⟩
    rcases c with ⟨c1, c2⟩
    simp only [mkGeKey, mkLe, mkLt, Prod.mk.injEq] at hab hbc ⊢
    omega⟩

instance : IsTotal Photo photoDesc :=
  ⟨fun a b => by
    simp only [photoDesc, dtLe, dtKey, mkLt, Prod.mk.injEq]
    omega⟩

instance : IsTrans Photo photoDesc :=
  ⟨fun a b c hab hbc => by
    simp only [photoDesc, dtLe, dtKey, mkLt, Prod.mk.injEq] at hab hbc ⊢
    omega⟩

/-- The rows of the `GROUP BY month ORDER BY month DESC` query: each
distinct month key, newest first, with the number of records in it. -/
def monthRows (catalog : List Photo) : List (MonthKey × Nat) :=
  let keys := catalog.map fun p => dtKey p.takenAt
  (List.insertionSort mkGeKey keys.dedup).map fun m => (m, keys.countP fun x => decide (x = m))

/-- The row loop of `GetMonthBuckets`: accumulate `cumulative += count`. -/
def mkBuckets : List (MonthKey × Nat) → Nat → List MonthBucket
  | [], _ => []
  | (m, c) :: rest, cum => ⟨m, monthLabel m, c, cum⟩ :: mkBuckets rest (cum + c)

/-- `GetMonthBuckets()`. -/
def GetMonthBuckets (catalog : List Photo) : List MonthBucket :=
  mkBuckets (monthRows catalog) 0

/-- The photos held by the first group with a given month key (the
`groupMap` lookup), or `[]` when no such group exists. -/
def photosOf (k : MonthKey) : List TimelineGroup → List Photo
  | [] => []
  | g :: rest => if g.date = k then g.photos else photosOf k rest

/-- A concrete photo for witness catalogs. -/
def demoPhoto (id : Nat) (m : Nat) (mt : String) : Photo :=
  { id := id, path := "/p" ++ toString id, filename := "p" ++ toString id
    takenAt := ⟨2024, m, id⟩, width := 0, height := 0, orientation := 0
    mediaType := mt, fileSize := 0, duration := 0, thumbPath := ""
    indexedAt := ⟨2024, m, id⟩ }

/-- Two-month witness catalog for the month-bucket invariant. -/
def demoCat3 : List Photo := [demoPhoto 1 3 "image", demoPhoto 2 1 "image"]

/-- The second (older) bucket `GetMonthBuckets demoCat3` produces. -/
def demoBucket1 : MonthBucket := ⟨(2024, 1), "January 2024", 1, 1⟩

/-- The four-record scenario: images taken in January, February, February,
and a video whose date fell back to a March mtime. -/
def demoCat4 : List Photo :=
  [demoPhoto 1 1 "image", demoPhoto 2 2 "image", demoPhoto 3 2 "image", demoPhoto 4 3 "video"]

/-- The March group that `GetTimeline demoCat4 0 10` produces. -/
def demoGroupMar : TimelineGroup := ⟨(2024, 3), "March 2024", 1, [demoPhoto 4 3 "video"]⟩

end DB

/-! ### Scanner/Indexer (`internal/indexer/indexer.go`) -/

namespace Indexer

/-- Supported image extensions (keys of `imageExts`). -/
def imageExts : List String :=
  [".jpg", ".jpeg", ".png", ".gif", ".webp", ".bmp", ".tiff", ".tif", ".heic", ".heif", ".avif"]

/-- Supported video extensions (keys of `videoExts`). -/
def videoExts : List String :=
  [".mp4", ".mov", ".avi", ".mkv", ".webm", ".m4v", ".3gp", ".wmv"]

/-- ASCII lowercasing of one character (`strings.ToLower` on the ASCII
names and extensions this code compares). -/
def lowerChar (ch : Char) : Char :=
  if 65 ≤ ch.toNat ∧ ch.toNat ≤ 90 then Char.ofNat (ch.toNat + 32) else ch

/-- `strings.ToLower`. -/
def lowerStr (s : String) : String := ⟨s.data.map lowerChar⟩

/-- `strings.HasPrefix(name, ".")`. -/
def startsWithDot (s : String) : Bool :=
  match s.data with
  | [] => false
  | c :: _ => c = '.'

/-- `shouldSkipFile`: hidden/dot files and junk names, case-insensitive. -/
def shouldSkipFile (name : String) : Bool :=
  if startsWithDot name then true
  else
    let lower := lowerStr name
    lower == "thumbs.db" || lower == "desktop.ini" || lower == ".ds_store"

/-- Scan a reversed character list for the extension: walk from the end of
the path, collecting characters until the final dot (included) or giving
up at a path separator. -/
def extFromRev : List Char → List Char → Option (List Char)
  | [], _ => none
  | c :: rest, acc =>
    if c = '.' then some (c :: acc)
    else if c = '/' then none
    else extFromRev rest (c :: acc)

/-- `filepath.Ext`: the suffix of the last path element starting at its
final dot, or `""` when there is none. -/
def extOf (p : String) : String :=
  match extFromRev p.data.reverse [] with
  | some cs => String.mk cs
  | none => ""

/-- The per-run progress counters touched by the scan's index pass. -/
structure Counters where
  processed : Nat
  skipped : Nat
  errors : Nat
deriving DecidableEq, Repr

/-- Outcomes of `extractExif` for one image: whether `exif.Decode`
succeeded and which tags were present and parseable. -/
structure ExifOracle where
  ok : Bool
  dateTime : Option DB.DateTime
  width : Option Nat
  height : Option Nat
  orientation : Option Nat
deriving DecidableEq, Repr

/-- Outcomes of the external effects touched while visiting one file:
the walk error argument, the `PhotoExists` query, `d.Info()`,
`UpsertPhoto`, plus the observed mtime, size and clock. -/
structure FileOracle where
  walkErr : Bool
  dbErr : Bool
  infoErr : Bool
  upsertErr : Bool
  modTime : DB.DateTime
  size : Nat
  indexTime : DB.DateTime
  exif : ExifOracle
deriving DecidableEq, Repr

/-- Which exit the per-file walk callback took. -/
inductive FileAction where
  | walkError
  | directory
  | junk
  | notMedia
  | existsCheckFailed
  | skippedExisting
  | statFailed
  | upsertFailed
  | upserted
deriving DecidableEq, Repr

/-- `extractExif`: each tag that parses overwrites the default; any
failure leaves the fallback value in place. -/
def extractExif (o : ExifOracle) (photo : DB.Photo) : DB.Photo :=
  if o.ok = false then photo
  else
    let p1 := match o.dateTime with
      | some dt => { photo with takenAt := dt }
      | none => photo
    let p2 := match o.width with
      | some w => { p1 with width := w }
      | none => p1
    let p3 := match o.height with
      | some h => { p2 with height := h }
      | none => p2
    match o.orientation with
    | some r => { p3 with orientation := r }
    | none => p3

/-- `processFile`: build the record from file attributes, with
`taken_at` defaulting to the modification time; images additionally go
through EXIF extraction.  Returns `none` when `d.Info()` fails (the
caller has already counted that error). -/
def processFile (path name : String) (isImage : Bool) (o : FileOracle) : Option DB.Photo :=
  if o.infoErr then none
  else
    let photo : DB.Photo :=
      { id := 0, path := path, filename := name, takenAt := o.modTime
        width := 0, height := 0, orientation := 0
        mediaType := if isImage then "image" else "video"
        fileSize := o.size, duration := 0, thumbPath := "", indexedAt := o.indexTime }
    some (if isImage then extractExif o.exif photo else photo)

/-- `UpsertPhoto`: `INSERT ... ON CONFLICT(path) DO UPDATE` — replace the
record with the matching path keeping its rowid, else append with a fresh
id. -/
def upsert (db : List DB.Photo) (p : DB.Photo) : List DB.Photo :=
  if p.path ∈ db.map (·.path) then
    db.map fun q => if q.path = p.path then { p with id := q.id } else q
  else
    db ++ [{ p with id := (db.map (·.id)).foldr max 0 + 1 }]

/-- One iteration of the index-pass walk callback of `Scan`, against the
catalog `db` and counters `c`. -/
def visitFile (db : List DB.Photo) (c : Counters) (path name : String) (isDir : Bool)
    (o : FileOracle) : List DB.Photo × Counters × FileAction :=
  if o.walkErr then (db, c, .walkError)
  else if isDir then (db, c, .directory)
  else if shouldSkipFile name then (db, c, .junk)
  else
    let ext := lowerStr (extOf path)
    let isImage := imageExts.contains ext
    let isVideo := videoExts.contains ext
    if !(isImage || isVideo) then (db, c, .notMedia)
    else if o.dbErr then (db, { c with errors := c.errors + 1 }, .existsCheckFailed)
    else if path ∈ db.map (·.path) then
      (db, { c with skipped := c.skipped + 1, processed := c.processed + 1 }, .skippedExisting)
    else
      match processFile path name isImage o with
      | none => (db, { c with errors := c.errors + 1, processed := c.processed + 1 }, .statFailed)
      | some photo =>
        if o.upsertErr then
          (db, { c with errors := c.errors + 1, processed := c.processed + 1 }, .upsertFailed)
        else
          (upsert db photo, { c with processed := c.processed + 1 }, .upserted)

/-- The scan-exclusivity state of one `Indexer`: the mutex-protected
`running` flag together with the number of walks currently executing. -/
structure ScanState where
  running : Bool
  activeWalks : Nat
deriving DecidableEq, Repr

/-- The entry of `Scan()`: under the mutex, fail if a scan is running,
otherwise set `running` and start the walk. -/
def scanBegin (s : ScanState) : Except String ScanState :=
  if s.running then .error "indexing already in progress"
  else .ok { running := true, activeWalks := s.activeWalks + 1 }

/-- The deferred exit of `Scan()`: the walk ends and `running` clears. -/
def scanFinish (s : ScanState) : ScanState :=
  { running := false, activeWalks := s.activeWalks - 1 }

/-- States a single process can reach through `Scan` entries and exits:
starting from idle, a successful `scanBegin` step, or the deferred finish
of the scan that is running (a failed `scanBegin` changes nothing). -/
inductive Reachable : ScanState → Prop where
  | init : Reachable ⟨false, 0⟩
  | start {s s₂ : ScanState} : Reachable s → scanBegin s = .ok s₂ → Reachable s₂
  | finish {s : ScanState} : Reachable s → s.running = true → Reachable (scanFinish s)

/-- Concrete single-record catalog for witnesses. -/
def demoDb : List DB.Photo :=
  [{ id := 1, path := "/a.jpg", filename := "a.jpg", takenAt := ⟨2024, 1, 1⟩
     width := 0, height := 0, orientation := 0, mediaType := "image"
     fileSize := 7, duration := 0, thumbPath := "", indexedAt := ⟨2024, 1, 2⟩ }]

/-- An uneventful per-file oracle for witnesses. -/
def demoOracle : FileOracle :=
  { walkErr := false, dbErr := false, infoErr := false, upsertErr := false
    modTime := ⟨2024, 1, 1⟩, size := 7, indexTime := ⟨2024, 1, 2⟩
    exif := { ok := false, dateTime := none, width := none, height := none, orientation := none } }

end Indexer

/-! ### Pregeneration engine (`PregenSmallThumbnails` in `internal/thumbnail/thumbnail.go`) -/

namespace Pregen

/-- `PregenItem`: one `{path, mediaType}` pair from the catalog. -/
structure PregenItem where
  path : String
  mediaType : String
deriving DecidableEq, Repr

/-- Outcomes of the generation pipelines, per source path, plus ffmpeg
availability.  The generator treats paths opaquely here; the cache is
keyed by the source path (its SHA-256 key is collision-free in practice). -/
structure GenEnv where
  genOk : String → Bool
  vidOk : String → Bool
  ffmpegAvailable : Bool

/-- The durable state the engine reads and writes: the `FailureMemo`
(`failCache`, in append order) and the set of source paths whose small
thumbnail file exists. -/
structure CacheState where
  failCache : List String
  cached : List String
deriving DecidableEq, Repr

/-- `PregenResult`: the per-run counters. -/
structure PregenResult where
  generated : Nat
  skipped : Nat
  errors : Nat
deriving DecidableEq, Repr

/-- How one item was handled. -/
inductive ItemAction where
  | skipFailed
  | skipCached
  | skipNoFfmpeg
  | generated
  | genFailed
deriving DecidableEq, Repr

/-- `recordFailure`: add the path to the failure cache (in memory and
appended to the on-disk file) unless already recorded. -/
def recordFailure (st : CacheState) (p : String) : CacheState :=
  if p ∈ st.failCache then st else { st with failCache := st.failCache ++ [p] }

/-- The per-item body of the batch loop: skip memoized failures, skip
already-cached thumbnails, skip videos without ffmpeg, otherwise attempt
generation, recording failures. -/
def itemStep (env : GenEnv) (st : CacheState) (res : PregenResult) (item : PregenItem) :
    CacheState × PregenResult × ItemAction :=
  if item.path ∈ st.failCache then
    (st, { res with skipped := res.skipped + 1 }, .skipFailed)
  else if item.path ∈ st.cached then
    (st, { res with skipped := res.skipped + 1 }, .skipCached)
  else if item.mediaType == "video" then
    if env.ffmpegAvailable then
      if env.vidOk item.path then
        ({ st with cached := item.path :: st.cached },
          { res with generated := res.generated + 1 }, .generated)
      else
        (recordFailure st item.path, { res with errors := res.errors + 1 }, .genFailed)
    else
      (st, { res with skipped := res.skipped + 1 }, .skipNoFfmpeg)
  else
    if env.genOk item.path then
      ({ st with cached := item.path :: st.cached },
        { res with generated := res.generated + 1 }, .generated)
    else
      (recordFailure st item.path, { res with errors := res.errors + 1 }, .genFailed)

/-- One batch: fold `itemStep` over the items, collecting the actions. -/
def runBatch (env : GenEnv) (st : CacheState) (res : PregenResult) :
    List PregenItem → CacheState × PregenResult × List (PregenItem × ItemAction)
  | [] => (st, res, [])
  | item :: rest =>
    let s1 := itemStep env st res item
    let s2 := runBatch env s1.1 s1.2.1 rest
    (s2.1, s2.2.1, (item, s1.2.2) :: s2.2.2)

/-- Several batches in sequence, without stop checks or progress updates
(specification device for "the partial result after j full batches"). -/
def runBatches (env : GenEnv) (st : CacheState) (res : PregenResult) :
    List (List PregenItem) → CacheState × PregenResult
  | [] => (st, res)
  | b :: bs =>
    let s1 := runBatch env st res b
    runBatches env s1.1 s1.2.1 bs

/-- `PregenProgress`: the API-visible progress state.  The float rate is
modelled as a rational; timestamps are opaque clock readings. -/
structure Progress where
  running : Bool
  total : Nat
  generated : Nat
  skipped : Nat
  errors : Nat
  itemsPerSec : ℚ
  etaSeconds : Int
  startedAt : Option Nat
  finishedAt : Option Nat
deriving DecidableEq, Repr

/-- The wall clock as observed by the run: the start reading, the elapsed
seconds seen after each batch, and the elapsed seconds and reading at the
final update. -/
structure ClockEnv where
  start : Nat
  batchElapsed : Nat → ℚ
  finishElapsed : ℚ
  finishTime : Nat

/-- The per-batch progress publication: counters, running rate, and a
rate-based ETA (truncated to whole seconds). -/
def batchUpdate (clock : ClockEnv) (bIdx : Nat) (total : Nat) (res : PregenResult)
    (prog : Progress) : Progress :=
  let processed := res.generated + res.skipped + res.errors
  let elapsed := clock.batchElapsed bIdx
  let rate : ℚ := if 0 < elapsed then (processed : ℚ) / elapsed else 0
  let eta : Int := if 0 < rate then (((total : ℚ) - (processed : ℚ)) / rate).floor else 0
  { prog with
    generated := res.generated, skipped := res.skipped, errors := res.errors
    itemsPerSec := rate, etaSeconds := eta }

/-- The completion block: clear `Running`, stamp `FinishedAt`, compute the
final rate, reset the ETA. -/
def finalize (clock : ClockEnv) (res : PregenResult) (prog : Progress) : Progress :=
  let processed := res.generated + res.skipped + res.errors
  { prog with
    running := false
    generated := res.generated, skipped := res.skipped, errors := res.errors
    finishedAt := some clock.finishTime
    itemsPerSec := if 0 < clock.finishElapsed then (processed : ℚ) / clock.finishElapsed
      else prog.itemsPerSec
    etaSeconds := 0 }

/-- Split the items into batches of `bs` (fuel-based recursion; for
`bs = 0` the Go loop would never terminate, so only positive batch sizes
are meaningful). -/
def chunkFuel : Nat → Nat → List PregenItem → List (List PregenItem)
  | 0, _, _ => []
  | _ + 1, _, [] => []
  | f + 1, bs, x :: xs => ((x :: xs).take bs) :: chunkFuel f bs ((x :: xs).drop bs)

/-- The batches `for i := 0; i < total; i += batchSize` iterates over. -/
def chunks (bs : Nat) (xs : List PregenItem) : List (List PregenItem) :=
  chunkFuel xs.length bs xs

/-- The number of stop-signal checks a full run over `b` batches performs:
one before each batch plus one during each inter-batch sleep (no sleep
after the last batch). -/
def checksFor (b : Nat) : Nat := if b = 0 then 0 else 2 * b - 1

/-- The batch loop of `PregenSmallThumbnails`.  `bIdx` numbers batches,
`cIdx` numbers stop-signal checks (`stop k` tells whether the stop channel
is closed at the k-th check).  Returns the run counters, the cache state,
the published progress, whether the run aborted on the stop signal (the
two early `return result` exits), and the item/action trace. -/
def pregenGo (env : GenEnv) (clock : ClockEnv) (stop : Nat → Bool) (total : Nat) :
    List (List PregenItem) → Nat → Nat → CacheState → PregenResult → Progress →
      List (PregenItem × ItemAction) →
      PregenResult × CacheState × Progress × Bool × List (PregenItem × ItemAction)
  | [], _, _, st, res, prog, acts => (res, st, finalize clock res prog, false, acts)
  | b :: bs, bIdx, cIdx, st, res, prog, acts =>
    if stop cIdx then (res, st, prog, true, acts)
    else
      let s1 := runBatch env st res b
      let prog1 := batchUpdate clock bIdx total s1.2.1 prog
      if bs.isEmpty then
        pregenGo env clock stop total bs (bIdx + 1) (cIdx + 1) s1.1 s1.2.1 prog1
          (acts ++ s1.2.2)
      else if stop (cIdx + 1) then (s1.2.1, s1.1, prog1, true, acts ++ s1.2.2)
      else
        pregenGo env clock stop total bs (bIdx + 1) (cIdx + 2) s1.1 s1.2.1 prog1
          (acts ++ s1.2.2)

/-- `PregenSmallThumbnails`: reset the progress state with the total and
start stamp, then run the batch loop. -/
def PregenSmallThumbnails (env : GenEnv) (clock : ClockEnv) (stop : Nat → Bool)
    (items : List PregenItem) (batchSize : Nat) (st : CacheState) :
    PregenResult × CacheState × Progress × Bool × List (PregenItem × ItemAction) :=
  let total := items.length
  let prog0 : Progress :=
    { running := true, total := total, generated := 0, skipped := 0, errors := 0
      itemsPerSec := 0, etaSeconds := 0, startedAt := some clock.start, finishedAt := none }
  pregenGo env clock stop total (chunks batchSize items) 0 0 st ⟨0, 0, 0⟩ prog0 []

/-- A 100-item catalog of images for the end-to-end scenario. -/
def demoItems : List PregenItem :=
  (List.range 100).map fun n => ⟨"p" ++ toString n, "image"⟩

/-- Generation succeeds for everything except the corrupt item `p37`. -/
def demoGenEnv : GenEnv := ⟨fun p => p != "p37", fun _ => true, false⟩

/-- A fixed clock for concrete runs. -/
def demoClock : ClockEnv := ⟨0, fun _ => 1, 1, 1⟩

/-- The first scenario run, over an empty cache and empty memo. -/
def demoRun1 : PregenResult × CacheState × Progress × Bool × List (PregenItem × ItemAction) :=
  PregenSmallThumbnails demoGenEnv demoClock (fun _ => false) demoItems 10 ⟨[], []⟩

/-- The second scenario run, over the state the first run left behind. -/
def demoRun2 : PregenResult × CacheState × Progress × Bool × List (PregenItem × ItemAction) :=
  PregenSmallThumbnails demoGenEnv demoClock (fun _ => false) demoItems 10 demoRun1.2.1

end Pregen

/-! ### Theorems about the thumbnail cache -/

/-- Helper: a string of the form `P ++ v ++ w` determines `v` once `P` and
`w` are fixed. -/
theorem string_middle_cancel (P w v₁ v₂ : String) (h : P ++ v₁ ++ w = P ++ v₂ ++ w) :
    v₁ = v₂ := by
  have hd := congrArg String.data h
  simp only [String.data_append] at hd
  exact String.ext (List.append_cancel_left (List.append_cancel_right hd))

/-- C1: `GetOrCreate` is idempotent.  If the cache file at
`thumbPath(p, s)` already exists it is returned as-is, with no generation
and no filesystem change; and whenever a call returns a path successfully,
an immediately following call returns the same path, leaves the filesystem
unchanged, and performs zero `generate` invocations. -/
theorem getOrCreate_idempotent (env : Thumb.Env) (o : Thumb.GenOracle) (fs : Thumb.FS)
    (p : String) (s : Thumb.Size) :
    (Thumb.thumbPath env p s ∈ fs →
      Thumb.GetOrCreate env o fs p s = (.ok (Thumb.thumbPath env p s), fs, 0)) ∧
    (∀ r fs₁ n₁, Thumb.GetOrCreate env o fs p s = (.ok r, fs₁, n₁) →
      Thumb.GetOrCreate env o fs₁ p s = (.ok r, fs₁, 0)) := by
  constructor
  · intro h
    simp [Thumb.GetOrCreate, h]
  · intro r fs₁ n₁ h
    by_cases hmem : Thumb.thumbPath env p s ∈ fs
    · simp [Thumb.GetOrCreate, hmem] at h
      obtain ⟨hr, hfs, -⟩ := h
      subst hr hfs
      simp [Thumb.GetOrCreate, hmem]
    · by_cases hgen : o.genOk p
      · simp [Thumb.GetOrCreate, hmem, hgen] at h
        obtain ⟨hr, hfs, -⟩ := h
        subst hr hfs
        simp [Thumb.GetOrCreate]
      · simp [Thumb.GetOrCreate, hmem, hgen] at h

/-- Witness for C1: concrete second call after a successful generation. -/
theorem getOrCreate_idempotent_witness :
    Thumb.GetOrCreate Thumb.wEnv Thumb.wGen Thumb.wFs1 "x.jpg" "sm"
      = (.ok (Thumb.thumbPath Thumb.wEnv "x.jpg" "sm"), Thumb.wFs1, 0) :=
  (getOrCreate_idempotent Thumb.wEnv Thumb.wGen [] "x.jpg" "sm").2
    (Thumb.thumbPath Thumb.wEnv "x.jpg" "sm") Thumb.wFs1 1 rfl

/-- C2: `thumbPath` is a pure function of the source path, the size class
and the cache-format version: equal `(path, size, version)` triples give
equal cache paths, and for a fixed `(path, size)` changing only the version
constant changes the resulting cache path. -/
theorem thumbPath_deterministic_version_sensitive :
    (∀ (env : Thumb.Env) p₁ p₂ s₁ s₂ v₁ v₂, p₁ = p₂ → s₁ = s₂ → v₁ = v₂ →
      Thumb.thumbPathV env v₁ p₁ s₁ = Thumb.thumbPathV env v₂ p₂ s₂) ∧
    (∀ (env : Thumb.Env) p s v₁ v₂, v₁ ≠ v₂ →
      Thumb.thumbPathV env v₁ p s ≠ Thumb.thumbPathV env v₂ p s) := by
  constructor
  · intro env p₁ p₂ s₁ s₂ v₁ v₂ hp hs hv
    subst hp hs hv
    rfl
  · intro env p s v₁ v₂ hne h
    simp only [Thumb.thumbPathV] at h
    exact hne (string_middle_cancel _ ".webp" v₁ v₂ h)

/-- Witness for C2: determinism and version sensitivity at concrete inputs
(the real `"v2"` constant against a hypothetical `"v3"` bump). -/
theorem thumbPath_deterministic_version_sensitive_witness :
    Thumb.thumbPathV Thumb.wEnv "v2" "x.jpg" "sm" = Thumb.thumbPathV Thumb.wEnv "v2" "x.jpg" "sm"
    ∧ Thumb.thumbPathV Thumb.wEnv "v2" "x.jpg" "sm" ≠ Thumb.thumbPathV Thumb.wEnv "v3" "x.jpg" "sm" :=
  ⟨thumbPath_deterministic_version_sensitive.1 Thumb.wEnv _ _ _ _ _ _ rfl rfl rfl,
   thumbPath_deterministic_version_sensitive.2 Thumb.wEnv "x.jpg" "sm" "v2" "v3" (by decide)⟩

/-- C10: in `GetOrCreateVideo` the cache existence check precedes the
ffmpeg availability check: a cached video thumbnail is returned even when
ffmpeg is unavailable, and the `ffmpeg not available` error occurs exactly
when the thumbnail is absent and the tool is missing. -/
theorem getOrCreateVideo_cache_check_first (env : Thumb.Env) (v : Thumb.VidOracle)
    (fs : Thumb.FS) (p : String) (s : Thumb.Size) :
    (Thumb.thumbPath env p s ∈ fs →
      Thumb.GetOrCreateVideo env v fs p s = (.ok (Thumb.thumbPath env p s), fs)) ∧
    ((Thumb.GetOrCreateVideo env v fs p s).1 = .error .ffmpegNotAvailable ↔
      Thumb.thumbPath env p s ∉ fs ∧ v.ffmpegAvailable = false) := by
  constructor
  · intro h
    simp [Thumb.GetOrCreateVideo, h]
  · by_cases hmem : Thumb.thumbPath env p s ∈ fs
    · simp [Thumb.GetOrCreateVideo, hmem]
    · rcases v with ⟨ff, mk, e1, e2, dec, cr, enc⟩
      cases ff <;> cases mk <;> cases e1 <;> cases e2 <;> cases dec <;> cases cr <;> cases enc <;>
        simp [Thumb.GetOrCreateVideo, Thumb.videoEncode, hmem]

/-- Witness for C10: a cached entry is served with ffmpeg missing, and the
missing-tool error appears exactly on an uncached path. -/
theorem getOrCreateVideo_cache_check_first_witness :
    Thumb.GetOrCreateVideo Thumb.wEnv Thumb.wVidNoFF Thumb.wFs1 "x.jpg" "sm"
      = (.ok (Thumb.thumbPath Thumb.wEnv "x.jpg" "sm"), Thumb.wFs1)
    ∧ (Thumb.GetOrCreateVideo Thumb.wEnv Thumb.wVidNoFF [] "x.jpg" "sm").1
      = .error .ffmpegNotAvailable :=
  ⟨(getOrCreateVideo_cache_check_first Thumb.wEnv Thumb.wVidNoFF Thumb.wFs1 "x.jpg" "sm").1
      (by simp [Thumb.wFs1]),
   (getOrCreateVideo_cache_check_first Thumb.wEnv Thumb.wVidNoFF [] "x.jpg" "sm").2.mpr
      (by constructor <;> decide)⟩

/-! ### Theorems about the metadata catalog -/

/-- Helper: the counts of the built buckets are the counts of the rows. -/
theorem mkBuckets_map_count (rows : List (DB.MonthKey × Nat)) (cum : Nat) :
    (DB.mkBuckets rows cum).map (·.count) = rows.map (·.2) := by
  induction rows generalizing cum with
  | nil => rfl
  | cons r rest ih => cases r; simp [DB.mkBuckets, ih]

/-- Helper: the months of the built buckets are the months of the rows. -/
theorem mkBuckets_map_month (rows : List (DB.MonthKey × Nat)) (cum : Nat) :
    (DB.mkBuckets rows cum).map (·.month) = rows.map (·.1) := by
  induction rows generalizing cum with
  | nil => rfl
  | cons r rest ih => cases r; simp [DB.mkBuckets, ih]

/-- Helper: every bucket's cumulative offset is the accumulator plus the
sum of the counts of the rows before it. -/
theorem mkBuckets_getElem (rows : List (DB.MonthKey × Nat)) (cum : Nat) (i : Nat)
    (b : DB.MonthBucket) (h : (DB.mkBuckets rows cum)[i]? = some b) :
    b.cumulativeOffset = cum + ((rows.take i).map (·.2)).sum := by
  induction rows generalizing cum i with
  | nil => simp [DB.mkBuckets] at h
  | cons r rest ih =>
    cases r with
    | mk m c =>
      cases i with
      | zero =>
        simp only [DB.mkBuckets, List.getElem?_cons_zero, Option.some.injEq] at h
        subst h
        simp
      | succ j =>
        simp only [DB.mkBuckets, List.getElem?_cons_succ] at h
        have := ih (cum + c) j h
        simp only [List.take_succ_cons, List.map_cons, List.sum_cons]
        omega

/-- Helper: `mkBuckets` of a nonempty row list is nonempty. -/
theorem mkBuckets_ne_nil (rows : List (DB.MonthKey × Nat)) (cum : Nat) (h : rows ≠ []) :
    DB.mkBuckets rows cum ≠ [] := by
  cases rows with
  | nil => exact absurd rfl h
  | cons r rest => cases r; simp [DB.mkBuckets]

/-- Helper: the last bucket's offset plus its count is the accumulator
plus the total of all row counts. -/
theorem mkBuckets_last (rows : List (DB.MonthKey × Nat)) (cum : Nat) (b : DB.MonthBucket)
    (h : (DB.mkBuckets rows cum).getLast? = some b) :
    b.cumulativeOffset + b.count = cum + (rows.map (·.2)).sum := by
  induction rows generalizing cum with
  | nil => simp [DB.mkBuckets] at h
  | cons r rest ih =>
    cases r with
    | mk m c =>
      cases rest with
      | nil =>
        simp only [DB.mkBuckets, List.getLast?_singleton, Option.some.injEq] at h
        subst h
        simp
      | cons r2 rest2 =>
        rcases r2 with ⟨m2, c2⟩
        have h2 : (DB.mkBuckets ((m2, c2) :: rest2) (cum + c)).getLast? = some b := by
          simpa only [DB.mkBuckets, List.getLast?_cons_cons] using h
        have := ih (cum + c) h2
        simp only [List.map_cons, List.sum_cons] at this ⊢
        omega

/-- Helper: summing an equality indicator over a duplicate-free list that
contains the reference element gives one. -/
theorem sum_indicator_of_mem (l : List DB.MonthKey) (a : DB.MonthKey)
    (hn : l.Nodup) (ha : a ∈ l) :
    (l.map fun m => if a = m then 1 else 0).sum = 1 := by
  induction l with
  | nil => simp at ha
  | cons b t ih =>
    rcases List.nodup_cons.mp hn with ⟨hb, ht⟩
    by_cases hab : a = b
    · subst hab
      have h0 : (t.map fun m => if a = m then 1 else 0).sum = 0 := by
        rw [List.sum_eq_zero]
        intro x hx
        rcases List.mem_map.mp hx with ⟨m, hm, rfl⟩
        have : a ≠ m := fun h => hb (h ▸ hm)
        simp [this]
      simp [h0]
    · have ha2 : a ∈ t := by
        rcases List.mem_cons.mp ha with h | h
        · exact absurd h hab
        · exact h
      simp [hab, ih ht ha2]

/-- Helper: over the deduplicated key list, the per-month counts sum to
the total number of keys. -/
theorem sum_countP_dedup (l : List DB.MonthKey) :
    (l.dedup.map fun m => l.countP fun x => decide (x = m)).sum = l.length := by
  induction l with
  | nil => rfl
  | cons a t ih =>
    by_cases ha : a ∈ t
    · rw [List.dedup_cons_of_mem ha]
      have hsplit : (t.dedup.map fun m => (a :: t).countP fun x => decide (x = m))
          = t.dedup.map fun m => (t.countP fun x => decide (x = m)) + if a = m then 1 else 0 := by
        refine List.map_congr_left ?_
        intro m _
        rw [List.countP_cons]
        by_cases hm : a = m <;> simp [hm]
      rw [hsplit]
      have hone : (t.dedup.map fun m => if a = m then 1 else 0).sum = 1 :=
        sum_indicator_of_mem _ _ (List.nodup_dedup t) (List.mem_dedup.mpr ha)
      calc (t.dedup.map fun m =>
              (t.countP fun x => decide (x = m)) + if a = m then 1 else 0).sum
          = (t.dedup.map fun m => t.countP fun x => decide (x = m)).sum
            + (t.dedup.map fun m => if a = m then 1 else 0).sum := by
            rw [← List.sum_map_add]
        _ = t.length + 1 := by rw [ih, hone]
        _ = (a :: t).length := by simp
    · rw [List.dedup_cons_of_not_mem ha]
      have hhead : ((a :: t).countP fun x => decide (x = a)) = 1 := by
        rw [List.countP_cons]
        have h0 : (t.countP fun x => decide (x = a)) = 0 := by
          rw [List.countP_eq_zero]
          intro x hx
          simp only [decide_eq_true_eq]
          exact fun h => ha (h ▸ hx)
        simp [h0]
      have htail : (t.dedup.map fun m => (a :: t).countP fun x => decide (x = m))
          = t.dedup.map fun m => t.countP fun x => decide (x = m) := by
        refine List.map_congr_left ?_
        intro m hm
        rw [List.countP_cons]
        have : a ≠ m := fun h => ha (h ▸ List.mem_dedup.mp hm)
        simp [this]
      simp only [List.map_cons, List.sum_cons, hhead, htail, ih]
      simp [Nat.add_comm]

/-- Helper: the row counts of `monthRows` sum to the catalog size. -/
theorem monthRows_sum (catalog : List DB.Photo) :
    ((DB.monthRows catalog).map (·.2)).sum = catalog.length := by
  unfold DB.monthRows
  simp only [List.map_map]
  have hperm : List.Perm
      (List.insertionSort DB.mkGeKey ((catalog.map fun p => DB.dtKey p.takenAt).dedup))
      ((catalog.map fun p => DB.dtKey p.takenAt).dedup) := List.perm_insertionSort _ _
  have h1 := (hperm.map fun m =>
    (catalog.map fun p => DB.dtKey p.takenAt).countP fun x => decide (x = m)).sum_eq
  have h2 := sum_countP_dedup (catalog.map fun p => DB.dtKey p.takenAt)
  simp only [Function.comp_def] at h1 ⊢
  rw [h1, h2, List.length_map]

/-- Helper: projecting the first component back out of the pairing map. -/
theorem map_fst_pair (l : List DB.MonthKey) (f : DB.MonthKey → Nat) :
    (l.map fun m => (m, f m)).map (·.1) = l := by
  induction l with
  | nil => rfl
  | cons a t ih => simp [ih]

/-- C3: `GetMonthBuckets` returns buckets ordered newest-first; every
bucket's `cumulative_offset` equals the sum of `count` over the buckets
before it (the strictly newer ones), and the final bucket's
`cumulative_offset + count` equals the total record count. -/
theorem getMonthBuckets_invariant (catalog : List DB.Photo) :
    List.Pairwise (fun a b => DB.mkLt b.month a.month) (DB.GetMonthBuckets catalog)
    ∧ (∀ i b, (DB.GetMonthBuckets catalog)[i]? = some b →
        b.cumulativeOffset = (((DB.GetMonthBuckets catalog).take i).map (·.count)).sum)
    ∧ (∀ b, (DB.GetMonthBuckets catalog).getLast? = some b →
        b.cumulativeOffset + b.count = catalog.length) := by
  refine ⟨?_, ?_, ?_⟩
  · have hsorted : List.Sorted DB.mkGeKey
        (List.insertionSort DB.mkGeKey ((catalog.map fun p => DB.dtKey p.takenAt).dedup)) :=
      List.sorted_insertionSort _ _
    have hnodup : (List.insertionSort DB.mkGeKey
        ((catalog.map fun p => DB.dtKey p.takenAt).dedup)).Nodup :=
      ((List.perm_insertionSort _ _).nodup_iff).mpr (List.nodup_dedup _)
    have hstrict : List.Pairwise (fun a b => DB.mkLt b a)
        (List.insertionSort DB.mkGeKey ((catalog.map fun p => DB.dtKey p.takenAt).dedup)) := by
      refine (hsorted.and hnodup).imp ?_
      rintro a b ⟨hge, hne⟩
      rcases hge with h | h
      · exact h
      · exact absurd h.symm hne
    have hmap : (DB.GetMonthBuckets catalog).map (·.month)
        = List.insertionSort DB.mkGeKey ((catalog.map fun p => DB.dtKey p.takenAt).dedup) := by
      show (DB.mkBuckets (DB.monthRows catalog) 0).map (·.month) = _
      rw [mkBuckets_map_month]
      simp only [DB.monthRows]
      exact map_fst_pair _ _
    have hp : List.Pairwise (fun a b => DB.mkLt b a) ((DB.GetMonthBuckets catalog).map (·.month)) :=
      hmap ▸ hstrict
    exact List.pairwise_map.mp hp
  · intro i b h
    have h1 := mkBuckets_getElem (DB.monthRows catalog) 0 i b h
    have h2 : ((DB.GetMonthBuckets catalog).take i).map (·.count)
        = ((DB.monthRows catalog).take i).map (·.2) := by
      show ((DB.mkBuckets (DB.monthRows catalog) 0).take i).map (·.count) = _
      rw [List.map_take, mkBuckets_map_count, List.map_take]
    rw [h2]
    omega
  · intro b h
    have h1 := mkBuckets_last (DB.monthRows catalog) 0 b h
    rw [monthRows_sum] at h1
    omega

/-- Helper: `addPhoto` keeps the group keys, appending the new photo's
month key at the end exactly when it is not present yet. -/
theorem addPhoto_map_date (gs : List DB.TimelineGroup) (p : DB.Photo) :
    (DB.addPhoto gs p).map (·.date)
      = if DB.dtKey p.takenAt ∈ gs.map (·.date)
        then gs.map (·.date) else gs.map (·.date) ++ [DB.dtKey p.takenAt] := by
  induction gs with
  | nil => simp [DB.addPhoto]
  | cons g rest ih =>
    by_cases hd : g.date = DB.dtKey p.takenAt
    · simp [DB.addPhoto, hd]
    · have hd2 : DB.dtKey p.takenAt ≠ g.date := fun h => hd h.symm
      simp only [DB.addPhoto, if_neg hd, List.map_cons, ih, List.mem_cons]
      by_cases hm : DB.dtKey p.takenAt ∈ rest.map (·.date)
      · simp [hm, hd2]
      · simp [hm, hd2]

/-- Helper: `addPhoto` appends the photo to the photos of exactly its own
month key's group. -/
theorem photosOf_addPhoto (k : DB.MonthKey) (gs : List DB.TimelineGroup) (p : DB.Photo) :
    DB.photosOf k (DB.addPhoto gs p)
      = DB.photosOf k gs ++ if DB.dtKey p.takenAt = k then [p] else [] := by
  induction gs with
  | nil =>
    by_cases h : DB.dtKey p.takenAt = k <;> simp [DB.addPhoto, DB.photosOf, h]
  | cons g rest ih =>
    by_cases hd : g.date = DB.dtKey p.takenAt
    · by_cases hk : g.date = k
      · have hpk : DB.dtKey p.takenAt = k := hd.symm.trans hk
        simp [DB.addPhoto, DB.photosOf, hd, hk, hpk]
      · have hpk : DB.dtKey p.takenAt ≠ k := fun h => hk (hd.trans h)
        simp [DB.addPhoto, DB.photosOf, hd, hk, hpk]
    · by_cases hk : g.date = k
      · have hpk : DB.dtKey p.takenAt ≠ k := fun h => hd (hk.trans h.symm)
        have hkp : k ≠ DB.dtKey p.takenAt := fun h => hpk h.symm
        simp [DB.addPhoto, DB.photosOf, hd, hk, hpk, hkp]
      · simp [DB.addPhoto, DB.photosOf, hd, hk, ih]

/-- Helper: `addPhoto` preserves the count-equals-length invariant. -/
theorem addPhoto_counts (gs : List DB.TimelineGroup) (p : DB.Photo)
    (h : ∀ g ∈ gs, g.count = g.photos.length) :
    ∀ g ∈ DB.addPhoto gs p, g.count = g.photos.length := by
  induction gs with
  | nil =>
    intro g hg
    simp only [DB.addPhoto, List.mem_singleton] at hg
    subst hg
    simp
  | cons g0 rest ih =>
    intro g hg
    by_cases hd : g0.date = DB.dtKey p.takenAt
    · simp only [DB.addPhoto, if_pos hd, List.mem_cons] at hg
      rcases hg with rfl | hg
      · have := h g0 (List.mem_cons_self _ _)
        simp [this]
      · exact h g (List.mem_cons_of_mem _ hg)
    · simp only [DB.addPhoto, if_neg hd, List.mem_cons] at hg
      rcases hg with rfl | hg
      · exact h g (List.mem_cons_self _ _)
      · exact ih (fun g2 hg2 => h g2 (List.mem_cons_of_mem _ hg2)) g hg

/-- Helper: every group built by folding `addPhoto` over a page has
`count` equal to the number of photos it holds. -/
theorem foldl_addPhoto_counts (page : List DB.Photo) :
    ∀ gs, (∀ g ∈ gs, g.count = g.photos.length) →
      ∀ g ∈ page.foldl DB.addPhoto gs, g.count = g.photos.length := by
  induction page with
  | nil => intro gs h; exact h
  | cons p rest ih =>
    intro gs h
    rw [List.foldl_cons]
    exact ih _ (addPhoto_counts gs p h)

/-- Helper: after folding a page into the groups, the photos filed under a
month key are the initial ones followed by the page photos of that month,
in page order. -/
theorem foldl_addPhoto_photosOf (page : List DB.Photo) :
    ∀ gs k, DB.photosOf k (page.foldl DB.addPhoto gs)
      = DB.photosOf k gs ++ page.filter fun p => decide (DB.dtKey p.takenAt = k) := by
  induction page with
  | nil => intro gs k; simp
  | cons p rest ih =>
    intro gs k
    rw [List.foldl_cons, ih, photosOf_addPhoto, List.filter_cons]
    by_cases h : DB.dtKey p.takenAt = k <;> simp [h, List.append_assoc]

/-- Helper: `addPhoto` preserves distinctness of the group keys. -/
theorem nodup_dates_addPhoto (gs : List DB.TimelineGroup) (p : DB.Photo)
    (h : (gs.map (·.date)).Nodup) : ((DB.addPhoto gs p).map (·.date)).Nodup := by
  rw [addPhoto_map_date]
  by_cases hm : DB.dtKey p.takenAt ∈ gs.map (·.date)
  · rwa [if_pos hm]
  · rw [if_neg hm, List.nodup_append]
    refine ⟨h, List.nodup_singleton _, ?_⟩
    intro a ha hb
    rw [List.mem_singleton] at hb
    exact hm (hb ▸ ha)

/-- Helper: the group keys after folding a page are distinct, and a key is
present exactly when it was present initially or occurs in the page. -/
theorem foldl_addPhoto_dates (page : List DB.Photo) :
    ∀ gs, ((gs.map (·.date)).Nodup → (((page.foldl DB.addPhoto gs).map (·.date)).Nodup))
      ∧ ∀ k, (k ∈ (page.foldl DB.addPhoto gs).map (·.date)
          ↔ k ∈ gs.map (·.date) ∨ k ∈ page.map fun p => DB.dtKey p.takenAt) := by
  induction page with
  | nil => intro gs; exact ⟨fun h => h, fun k => by simp⟩
  | cons p rest ih =>
    intro gs
    constructor
    · intro h
      rw [List.foldl_cons]
      exact (ih (DB.addPhoto gs p)).1 (nodup_dates_addPhoto gs p h)
    · intro k
      rw [List.foldl_cons]
      rw [(ih (DB.addPhoto gs p)).2 k, addPhoto_map_date]
      by_cases hm : DB.dtKey p.takenAt ∈ gs.map (·.date)
      · rw [if_pos hm]
        have hkp : k = DB.dtKey p.takenAt → k ∈ gs.map (·.date) := fun h => h ▸ hm
        simp only [List.map_cons, List.mem_cons]
        tauto
      · rw [if_neg hm]
        simp only [List.mem_append, List.mem_singleton, List.map_cons, List.mem_cons]
        tauto

/-- Helper: folding a time-descending page into groups whose keys are
strictly descending and dominate the page keeps the keys strictly
descending. -/
theorem foldl_addPhoto_pairwise (page : List DB.Photo) :
    ∀ gs, List.Pairwise (fun a b => DB.mkLt b a) (gs.map (·.date)) →
      (∀ p ∈ page, ∀ d ∈ gs.map (·.date), DB.mkLe (DB.dtKey p.takenAt) d) →
      List.Pairwise DB.photoDesc page →
      List.Pairwise (fun a b => DB.mkLt b a) ((page.foldl DB.addPhoto gs).map (·.date)) := by
  induction page with
  | nil => intro gs h1 _ _; exact h1
  | cons p rest ih =>
    intro gs h1 h2 h3
    rw [List.foldl_cons]
    rcases List.pairwise_cons.mp h3 with ⟨hp, hrest⟩
    by_cases hk : DB.dtKey p.takenAt ∈ gs.map (·.date)
    · refine ih (DB.addPhoto gs p) ?_ ?_ hrest
      · rw [addPhoto_map_date, if_pos hk]
        exact h1
      · intro q hq d hd
        rw [addPhoto_map_date, if_pos hk] at hd
        exact h2 q (List.mem_cons_of_mem _ hq) d hd
    · refine ih (DB.addPhoto gs p) ?_ ?_ hrest
      · rw [addPhoto_map_date, if_neg hk, List.pairwise_append]
        refine ⟨h1, List.pairwise_singleton _ _, ?_⟩
        intro d hd kp hkp
        rw [List.mem_singleton] at hkp
        subst hkp
        rcases h2 p (List.mem_cons_self _ _) d hd with h | h
        · exact h
        · exact absurd (h ▸ hd) hk
      · intro q hq d hd
        rw [addPhoto_map_date, if_neg hk] at hd
        rcases List.mem_append.mp hd with hd | hd
        · exact h2 q (List.mem_cons_of_mem _ hq) d hd
        · rw [List.mem_singleton] at hd
          subst hd
          have hpq := hp q hq
          simp only [DB.photoDesc, DB.dtLe] at hpq
          rcases hpq with h | h
          · exact Or.inl h
          · exact Or.inr h.1

/-- Helper: in a group list with distinct keys, each group's photos are
what the key lookup returns. -/
theorem photos_eq_photosOf (gs : List DB.TimelineGroup)
    (h : (gs.map (·.date)).Nodup) :
    ∀ g ∈ gs, g.photos = DB.photosOf g.date gs := by
  induction gs with
  | nil => intro g hg; simp at hg
  | cons g0 rest ih =>
    intro g hg
    rcases List.mem_cons.mp hg with rfl | hg2
    · simp [DB.photosOf]
    · have h2 := h
      rw [List.map_cons, List.nodup_cons] at h2
      obtain ⟨h0, ht⟩ := h2
      have hne : g0.date ≠ g.date := by
        intro he
        exact h0 (he ▸ List.mem_map_of_mem (·.date) hg2)
      rw [show DB.photosOf g.date (g0 :: rest) = DB.photosOf g.date rest from by
        simp [DB.photosOf, hne]]
      exact ih ht g hg2

/-- C4: `GetTimeline(offset, limit)` reports the total catalog size and
`has_more = offset + limit < total`; the returned page is ordered by
capture time descending and grouped into month buckets within the page
only — group keys are distinct, cover exactly the months occurring in the
page, run newest-first, and each group carries exactly the page's photos
of its month in page order with a matching count.  On the four-record
March/February/February/January catalog, `GetTimeline(0, 10)` yields
groups March(1), February(2), January(1) with `total_count = 4` and
`has_more = false`. -/
theorem getTimeline_contract (catalog : List DB.Photo) (offset limit : Nat) :
    (DB.GetTimeline catalog offset limit).totalCount = catalog.length
    ∧ ((DB.GetTimeline catalog offset limit).hasMore = true ↔ offset + limit < catalog.length)
    ∧ List.Pairwise DB.photoDesc (((DB.sortByTakenDesc catalog).drop offset).take limit)
    ∧ List.Pairwise (fun a b => DB.mkLt b.date a.date) (DB.GetTimeline catalog offset limit).groups
    ∧ ((DB.GetTimeline catalog offset limit).groups.map (·.date)).Nodup
    ∧ (∀ k, k ∈ (DB.GetTimeline catalog offset limit).groups.map (·.date)
        ↔ k ∈ (((DB.sortByTakenDesc catalog).drop offset).take limit).map
            fun p => DB.dtKey p.takenAt)
    ∧ (∀ g ∈ (DB.GetTimeline catalog offset limit).groups,
        g.photos = (((DB.sortByTakenDesc catalog).drop offset).take limit).filter
            (fun p => decide (DB.dtKey p.takenAt = g.date))
          ∧ g.count = g.photos.length)
    ∧ ((DB.GetTimeline DB.demoCat4 0 10).groups.map fun g => (g.date, g.count))
        = [((2024, 3), 1), ((2024, 2), 2), ((2024, 1), 1)]
    ∧ (DB.GetTimeline DB.demoCat4 0 10).totalCount = 4
    ∧ (DB.GetTimeline DB.demoCat4 0 10).hasMore = false := by
  have hsortedAll : List.Pairwise DB.photoDesc (DB.sortByTakenDesc catalog) :=
    List.sorted_insertionSort _ _
  have hsub : List.Sublist (((DB.sortByTakenDesc catalog).drop offset).take limit)
      (DB.sortByTakenDesc catalog) :=
    (List.take_sublist _ _).trans (List.drop_sublist _ _)
  have hpage : List.Pairwise DB.photoDesc (((DB.sortByTakenDesc catalog).drop offset).take limit) :=
    hsortedAll.sublist hsub
  have hg : (DB.GetTimeline catalog offset limit).groups
      = (((DB.sortByTakenDesc catalog).drop offset).take limit).foldl DB.addPhoto [] := rfl
  refine ⟨rfl, ?_, hpage, ?_, ?_, ?_, ?_, by decide, rfl, rfl⟩
  · simp [DB.GetTimeline]
  · have hpw := foldl_addPhoto_pairwise (((DB.sortByTakenDesc catalog).drop offset).take limit)
      [] (by simp) (by simp) hpage
    rw [hg]
    exact List.pairwise_map.mp hpw
  · rw [hg]
    exact (foldl_addPhoto_dates _ []).1 (by simp)
  · intro k
    rw [hg, (foldl_addPhoto_dates _ []).2 k]
    simp
  · intro g hgmem
    rw [hg] at hgmem
    have hnodup := (foldl_addPhoto_dates (((DB.sortByTakenDesc catalog).drop offset).take limit)
      []).1 (by simp)
    constructor
    · have h1 := photos_eq_photosOf _ hnodup g hgmem
      rw [foldl_addPhoto_photosOf _ [] g.date] at h1
      simpa [DB.photosOf] using h1
    · exact foldl_addPhoto_counts _ [] (by simp) g hgmem

/-- Witness for C4: the March group of the concrete four-record timeline
is exactly the page's March photos with a matching count. -/
theorem getTimeline_contract_witness :
    DB.demoGroupMar.photos
      = (((DB.sortByTakenDesc DB.demoCat4).drop 0).take 10).filter
          (fun p => decide (DB.dtKey p.takenAt = DB.demoGroupMar.date))
    ∧ DB.demoGroupMar.count = DB.demoGroupMar.photos.length :=
  (getTimeline_contract DB.demoCat4 0 10).2.2.2.2.2.2.1 DB.demoGroupMar (by decide)

/-- Witness for C3: the invariant evaluated on a concrete two-month
catalog. -/
theorem getMonthBuckets_invariant_witness :
    DB.demoBucket1.cumulativeOffset
      = (((DB.GetMonthBuckets DB.demoCat3).take 1).map (·.count)).sum :=
  (getMonthBuckets_invariant DB.demoCat3).2.1 1 DB.demoBucket1 (by decide)

/-! ### Theorems about the scanner -/

/-- Helper: in every reachable scan state, the number of active walks is
one while a scan is running and zero otherwise. -/
theorem reachable_walks (s : Indexer.ScanState) (h : Indexer.Reachable s) :
    s.activeWalks = if s.running then 1 else 0 := by
  induction h with
  | init => rfl
  | start h1 h2 ih =>
    rename_i s1 s2
    unfold Indexer.scanBegin at h2
    by_cases hr : s1.running
    · simp [hr] at h2
    · simp only [hr, if_neg, Bool.false_eq_true, reduceIte, Except.ok.injEq] at h2
      subst h2
      simp only [hr, if_neg, Bool.false_eq_true, reduceIte] at ih
      simp [ih]
  | finish h1 hr ih =>
    rename_i s1
    rw [hr] at ih
    simp only [if_pos] at ih
    simp [Indexer.scanFinish, ih]

/-- C6: only one scan runs at a time.  In every reachable state at most
one walk is executing; `Scan` called while `running` is set fails
immediately with the `already running` error (no state change, no walk);
and a successful entry happens only from a non-running state, setting the
flag and starting exactly one more walk. -/
theorem scan_exclusive :
    (∀ s, Indexer.Reachable s → s.activeWalks ≤ 1)
    ∧ (∀ s, s.running = true →
        Indexer.scanBegin s = .error "indexing already in progress")
    ∧ (∀ s t, Indexer.scanBegin s = .ok t →
        s.running = false ∧ t.running = true ∧ t.activeWalks = s.activeWalks + 1) := by
  refine ⟨?_, ?_, ?_⟩
  · intro s h
    rw [reachable_walks s h]
    by_cases hr : s.running <;> simp [hr]
  · intro s h
    simp [Indexer.scanBegin, h]
  · intro s t h
    unfold Indexer.scanBegin at h
    by_cases hr : s.running
    · simp [hr] at h
    · simp only [hr, Bool.false_eq_true, reduceIte, Except.ok.injEq] at h
      subst h
      exact ⟨by simpa using hr, rfl, rfl⟩

/-- Witness for C6: the idle state has at most one walk, and a busy state
rejects a second scan with the `already running` error. -/
theorem scan_exclusive_witness :
    (⟨false, 0⟩ : Indexer.ScanState).activeWalks ≤ 1
    ∧ Indexer.scanBegin ⟨true, 1⟩ = .error "indexing already in progress" :=
  ⟨scan_exclusive.1 _ .init, scan_exclusive.2.1 ⟨true, 1⟩ rfl⟩

/-- C7 counterexample: a file whose `PhotoExists` query fails bumps the
`Errors` counter even though no upsert was attempted, refuting the claim
that only a failed upsert increments `Errors`. -/
theorem scan_errors_only_upsert_counterexample :
    ¬(((Indexer.visitFile Indexer.demoDb ⟨0, 0, 0⟩ "/b.jpg" "b.jpg" false
          { Indexer.demoOracle with dbErr := true }).2.1.errors = 1)
        → (Indexer.visitFile Indexer.demoDb ⟨0, 0, 0⟩ "/b.jpg" "b.jpg" false
          { Indexer.demoOracle with dbErr := true }).2.2 = .upsertFailed) := by
  decide

/-- C7 (amended): visiting one file changes `Errors` by at most one, and
it is incremented exactly when the existence check fails, reading the
file's attributes fails, or persisting the upsert fails; the outcome of
EXIF metadata extraction never affects the `Errors` counter. -/
theorem scan_errors_amended (db : List DB.Photo) (c : Indexer.Counters) (path name : String)
    (isDir : Bool) (o : Indexer.FileOracle) :
    ((Indexer.visitFile db c path name isDir o).2.1.errors = c.errors
      ∨ (Indexer.visitFile db c path name isDir o).2.1.errors = c.errors + 1)
    ∧ ((Indexer.visitFile db c path name isDir o).2.1.errors = c.errors + 1
        ↔ (Indexer.visitFile db c path name isDir o).2.2 = .existsCheckFailed
          ∨ (Indexer.visitFile db c path name isDir o).2.2 = .statFailed
          ∨ (Indexer.visitFile db c path name isDir o).2.2 = .upsertFailed)
    ∧ (∀ e : Indexer.ExifOracle,
        (Indexer.visitFile db c path name isDir { o with exif := e }).2.1.errors
          = (Indexer.visitFile db c path name isDir o).2.1.errors) := by
  by_cases h1 : o.walkErr = true <;>
    by_cases h2 : isDir = true <;>
      by_cases h3 : Indexer.shouldSkipFile name = true <;>
        by_cases h4 : (Indexer.lowerStr (Indexer.extOf path) ∉ Indexer.imageExts
            ∧ Indexer.lowerStr (Indexer.extOf path) ∉ Indexer.videoExts) <;>
          by_cases h5 : o.dbErr = true <;>
            by_cases h6 : path ∈ db.map (·.path) <;>
              by_cases h7 : o.infoErr = true <;>
                by_cases h8 : o.upsertErr = true <;>
                  simp [Indexer.visitFile, Indexer.processFile, h1, h2, h3, h4, h5, h6, h7, h8]

/-- Witness for C7: concretely, EXIF extraction succeeding instead of
failing leaves the `Errors` counter unchanged. -/
theorem scan_errors_amended_witness :
    (Indexer.visitFile Indexer.demoDb ⟨0, 0, 0⟩ "/b.jpg" "b.jpg" false
        { Indexer.demoOracle with exif := ⟨true, none, none, none, none⟩ }).2.1.errors
      = (Indexer.visitFile Indexer.demoDb ⟨0, 0, 0⟩ "/b.jpg" "b.jpg" false
        Indexer.demoOracle).2.1.errors :=
  (scan_errors_amended Indexer.demoDb ⟨0, 0, 0⟩ "/b.jpg" "b.jpg" false
    Indexer.demoOracle).2.2 ⟨true, none, none, none, none⟩

/-- C8: a qualifying file whose path is already catalogued is counted as
both skipped and processed, and the catalog is returned unchanged — no
record field is touched and no duplicate is created. -/
theorem scan_skip_existing (db : List DB.Photo) (c : Indexer.Counters) (path name : String)
    (o : Indexer.FileOracle)
    (hwalk : o.walkErr = false) (hskip : Indexer.shouldSkipFile name = false)
    (hmedia : Indexer.lowerStr (Indexer.extOf path) ∈ Indexer.imageExts
        ∨ Indexer.lowerStr (Indexer.extOf path) ∈ Indexer.videoExts)
    (hdb : o.dbErr = false) (hmem : path ∈ db.map (·.path)) :
    Indexer.visitFile db c path name false o
      = (db, { c with skipped := c.skipped + 1, processed := c.processed + 1 },
          .skippedExisting) := by
  simp [Indexer.visitFile, hwalk, hskip, hdb, hmem]
  exact fun h => hmedia.resolve_left h

/-- Witness for C8: revisiting the already-indexed `/a.jpg` bumps both
counters and leaves the one-record catalog untouched. -/
theorem scan_skip_existing_witness :
    Indexer.visitFile Indexer.demoDb ⟨2, 1, 0⟩ "/a.jpg" "a.jpg" false Indexer.demoOracle
      = (Indexer.demoDb, ⟨3, 2, 0⟩, .skippedExisting) :=
  scan_skip_existing Indexer.demoDb ⟨2, 1, 0⟩ "/a.jpg" "a.jpg" Indexer.demoOracle
    rfl (by decide) (by decide) rfl (by decide)

/-! ### Theorems about the pregeneration engine -/

/-- Helper: `recordFailure` records the path. -/
theorem recordFailure_mem (st : Pregen.CacheState) (p : String) :
    p ∈ (Pregen.recordFailure st p).failCache := by
  unfold Pregen.recordFailure
  by_cases h : p ∈ st.failCache <;> simp [h]

/-- Helper: `recordFailure` keeps every previously recorded path. -/
theorem recordFailure_mono (st : Pregen.CacheState) (p q : String) (h : q ∈ st.failCache) :
    q ∈ (Pregen.recordFailure st p).failCache := by
  unfold Pregen.recordFailure
  by_cases hm : p ∈ st.failCache <;> simp [hm, h]

/-- Helper: one item step never removes a path from the failure memo. -/
theorem itemStep_mono (env : Pregen.GenEnv) (st : Pregen.CacheState) (res : Pregen.PregenResult)
    (item : Pregen.PregenItem) (q : String) (h : q ∈ st.failCache) :
    q ∈ (Pregen.itemStep env st res item).1.failCache := by
  unfold Pregen.itemStep
  split_ifs <;> first | exact h | exact recordFailure_mono _ _ _ h

/-- Helper: an item whose path is memoized is skipped with no state
change. -/
theorem itemStep_skipFailed_of_mem (env : Pregen.GenEnv) (st : Pregen.CacheState)
    (res : Pregen.PregenResult) (item : Pregen.PregenItem) (h : item.path ∈ st.failCache) :
    Pregen.itemStep env st res item
      = (st, { res with skipped := res.skipped + 1 }, .skipFailed) := by
  simp [Pregen.itemStep, h]

/-- Helper: a failed generation records the item's path in the memo. -/
theorem itemStep_genFailed_mem (env : Pregen.GenEnv) (st : Pregen.CacheState)
    (res : Pregen.PregenResult) (item : Pregen.PregenItem)
    (h : (Pregen.itemStep env st res item).2.2 = .genFailed) :
    item.path ∈ (Pregen.itemStep env st res item).1.failCache := by
  unfold Pregen.itemStep at h ⊢
  split_ifs at h ⊢ <;> first | exact recordFailure_mem _ _ | simp_all

/-- Helper: the error counter moves by one exactly on a failed
generation. -/
theorem itemStep_errors (env : Pregen.GenEnv) (st : Pregen.CacheState)
    (res : Pregen.PregenResult) (item : Pregen.PregenItem) :
    (Pregen.itemStep env st res item).2.1.errors
      = if (Pregen.itemStep env st res item).2.2 = .genFailed
        then res.errors + 1 else res.errors := by
  unfold Pregen.itemStep
  split_ifs <;> simp_all

/-- Helper: a batch never removes a path from the failure memo. -/
theorem runBatch_mono (env : Pregen.GenEnv) :
    ∀ (b : List Pregen.PregenItem) (st : Pregen.CacheState) (res : Pregen.PregenResult)
      (q : String), q ∈ st.failCache → q ∈ (Pregen.runBatch env st res b).1.failCache := by
  intro b
  induction b with
  | nil => intro st res q h; exact h
  | cons item rest ih =>
    intro st res q h
    exact ih _ _ q (itemStep_mono env st res item q h)

/-- Helper: every item a batch fails on ends up in the failure memo. -/
theorem runBatch_acts_genFailed (env : Pregen.GenEnv) :
    ∀ (b : List Pregen.PregenItem) (st : Pregen.CacheState) (res : Pregen.PregenResult)
      (it : Pregen.PregenItem) (a : Pregen.ItemAction),
      (it, a) ∈ (Pregen.runBatch env st res b).2.2 → a = .genFailed →
      it.path ∈ (Pregen.runBatch env st res b).1.failCache := by
  intro b
  induction b with
  | nil => intro st res it a hmem _; simp [Pregen.runBatch] at hmem
  | cons item rest ih =>
    intro st res it a hmem ha
    simp only [Pregen.runBatch, List.mem_cons] at hmem
    rcases hmem with heq | hmem
    · obtain ⟨rfl, hact⟩ := Prod.mk.injEq .. |>.mp heq
      subst ha
      exact runBatch_mono env rest _ _ _
        (itemStep_genFailed_mem env st res it hact.symm)
    · exact ih _ _ it a hmem ha

/-- Helper: a batch's error counter counts exactly its failed
generations. -/
theorem runBatch_errors_count (env : Pregen.GenEnv) :
    ∀ (b : List Pregen.PregenItem) (st : Pregen.CacheState) (res : Pregen.PregenResult),
      (Pregen.runBatch env st res b).2.1.errors
        = res.errors + ((Pregen.runBatch env st res b).2.2.filter
            fun x => decide (x.2 = Pregen.ItemAction.genFailed)).length := by
  intro b
  induction b with
  | nil => intro st res; simp [Pregen.runBatch]
  | cons item rest ih =>
    intro st res
    simp only [Pregen.runBatch, List.filter_cons]
    rw [ih]
    have he := itemStep_errors env st res item
    by_cases ha : (Pregen.itemStep env st res item).2.2 = Pregen.ItemAction.genFailed
    · rw [if_pos ha] at he
      simp [ha, he]
      omega
    · rw [if_neg ha] at he
      simp [ha, he]

/-- Helper: within one batch, every occurrence of a memoized path is
skipped via the failure memo. -/
theorem runBatch_skipFailed (env : Pregen.GenEnv) (p : String) :
    ∀ (b : List Pregen.PregenItem) (st : Pregen.CacheState) (res : Pregen.PregenResult),
      p ∈ st.failCache →
      ∀ it a, (it, a) ∈ (Pregen.runBatch env st res b).2.2 → it.path = p →
        a = Pregen.ItemAction.skipFailed := by
  intro b
  induction b with
  | nil => intro st res _ it a hmem _; simp [Pregen.runBatch] at hmem
  | cons item rest ih =>
    intro st res hp it a hmem hpath
    simp only [Pregen.runBatch, List.mem_cons] at hmem
    rcases hmem with heq | hmem
    · obtain ⟨rfl, hact⟩ := Prod.mk.injEq .. |>.mp heq
      have hm : it.path ∈ st.failCache := hpath ▸ hp
      rw [itemStep_skipFailed_of_mem env st res it hm] at hact
      simpa using hact
    · exact ih _ _ (itemStep_mono env st res item p hp) it a hmem hpath

/-- Helper: the batch loop never removes a path from the failure memo. -/
theorem pregenGo_mono (env : Pregen.GenEnv) (clock : Pregen.ClockEnv) (stop : Nat → Bool)
    (total : Nat) :
    ∀ (batches : List (List Pregen.PregenItem)) (bIdx cIdx : Nat) (st : Pregen.CacheState)
      (res : Pregen.PregenResult) (prog : Pregen.Progress)
      (acts : List (Pregen.PregenItem × Pregen.ItemAction)) (q : String),
      q ∈ st.failCache →
      q ∈ (Pregen.pregenGo env clock stop total batches bIdx cIdx st res prog acts).2.1.failCache := by
  intro batches
  induction batches with
  | nil => intro bIdx cIdx st res prog acts q h; exact h
  | cons b bs ih =>
    intro bIdx cIdx st res prog acts q h
    simp only [Pregen.pregenGo]
    by_cases h1 : stop cIdx = true
    · simp only [h1, if_pos]
      exact h
    · simp only [h1, Bool.false_eq_true, reduceIte]
      by_cases h2 : bs.isEmpty = true
      · simp only [h2, if_pos]
        exact ih _ _ _ _ _ _ q (runBatch_mono env b st res q h)
      · simp only [h2, Bool.false_eq_true, reduceIte]
        by_cases h3 : stop (cIdx + 1) = true
        · simp only [h3, if_pos]
          exact runBatch_mono env b st res q h
        · simp only [h3, Bool.false_eq_true, reduceIte]
          exact ih _ _ _ _ _ _ q (runBatch_mono env b st res q h)

/-- Helper: every item the loop fails on is in the final failure memo,
given the already-collected trace satisfies the same. -/
theorem pregenGo_acts_genFailed (env : Pregen.GenEnv) (clock : Pregen.ClockEnv)
    (stop : Nat → Bool) (total : Nat) :
    ∀ (batches : List (List Pregen.PregenItem)) (bIdx cIdx : Nat) (st : Pregen.CacheState)
      (res : Pregen.PregenResult) (prog : Pregen.Progress)
      (acts : List (Pregen.PregenItem × Pregen.ItemAction)),
      (∀ it a, (it, a) ∈ acts → a = Pregen.ItemAction.genFailed → it.path ∈ st.failCache) →
      ∀ it a,
        (it, a) ∈ (Pregen.pregenGo env clock stop total batches bIdx cIdx st res prog acts).2.2.2.2 →
        a = Pregen.ItemAction.genFailed →
        it.path ∈ (Pregen.pregenGo env clock stop total batches bIdx cIdx st res prog acts).2.1.failCache := by
  intro batches
  induction batches with
  | nil => intro bIdx cIdx st res prog acts hinv it a hmem ha; exact hinv it a hmem ha
  | cons b bs ih =>
    intro bIdx cIdx st res prog acts hinv it a hmem ha
    have hinv2 : ∀ it a, (it, a) ∈ acts ++ (Pregen.runBatch env st res b).2.2 →
        a = Pregen.ItemAction.genFailed →
        it.path ∈ (Pregen.runBatch env st res b).1.failCache := by
      intro it2 a2 hm2 ha2
      rcases List.mem_append.mp hm2 with hm2 | hm2
      · exact runBatch_mono env b st res _ (hinv it2 a2 hm2 ha2)
      · exact runBatch_acts_genFailed env b st res it2 a2 hm2 ha2
    simp only [Pregen.pregenGo] at hmem ⊢
    by_cases h1 : stop cIdx = true
    · simp only [h1, if_pos] at hmem ⊢
      exact hinv it a hmem ha
    · simp only [h1, Bool.false_eq_true, reduceIte] at hmem ⊢
      by_cases h2 : bs.isEmpty = true
      · simp only [h2, if_pos] at hmem ⊢
        exact ih _ _ _ _ _ _ hinv2 it a hmem ha
      · simp only [h2, Bool.false_eq_true, reduceIte] at hmem ⊢
        by_cases h3 : stop (cIdx + 1) = true
        · simp only [h3, if_pos] at hmem ⊢
          exact hinv2 it a hmem ha
        · simp only [h3, Bool.false_eq_true, reduceIte] at hmem ⊢
          exact ih _ _ _ _ _ _ hinv2 it a hmem ha

/-- Helper: the loop's error counter counts exactly the failed
generations in its trace. -/
theorem pregenGo_errors (env : Pregen.GenEnv) (clock : Pregen.ClockEnv)
    (stop : Nat → Bool) (total : Nat) :
    ∀ (batches : List (List Pregen.PregenItem)) (bIdx cIdx : Nat) (st : Pregen.CacheState)
      (res : Pregen.PregenResult) (prog : Pregen.Progress)
      (acts : List (Pregen.PregenItem × Pregen.ItemAction)),
      res.errors = (acts.filter fun x => decide (x.2 = Pregen.ItemAction.genFailed)).length →
      (Pregen.pregenGo env clock stop total batches bIdx cIdx st res prog acts).1.errors
        = ((Pregen.pregenGo env clock stop total batches bIdx cIdx st res prog acts).2.2.2.2.filter
            fun x => decide (x.2 = Pregen.ItemAction.genFailed)).length := by
  intro batches
  induction batches with
  | nil => intro bIdx cIdx st res prog acts h; exact h
  | cons b bs ih =>
    intro bIdx cIdx st res prog acts h
    have h2 : (Pregen.runBatch env st res b).2.1.errors
        = ((acts ++ (Pregen.runBatch env st res b).2.2).filter
            fun x => decide (x.2 = Pregen.ItemAction.genFailed)).length := by
      rw [List.filter_append, List.length_append, ← h]
      exact runBatch_errors_count env b st res
    simp only [Pregen.pregenGo]
    by_cases h1 : stop cIdx = true
    · simp only [h1, if_pos]
      exact h
    · simp only [h1, Bool.false_eq_true, reduceIte]
      by_cases hb : bs.isEmpty = true
      · simp only [hb, if_pos]
        exact ih _ _ _ _ _ _ h2
      · simp only [hb, Bool.false_eq_true, reduceIte]
        by_cases h3 : stop (cIdx + 1) = true
        · simp only [h3, if_pos]
          exact h2
        · simp only [h3, Bool.false_eq_true, reduceIte]
          exact ih _ _ _ _ _ _ h2

/-- Helper: a path in the memo at loop entry is skipped at every
occurrence in the loop's trace. -/
theorem pregenGo_skipmemo (env : Pregen.GenEnv) (clock : Pregen.ClockEnv)
    (stop : Nat → Bool) (total : Nat) (p : String) :
    ∀ (batches : List (List Pregen.PregenItem)) (bIdx cIdx : Nat) (st : Pregen.CacheState)
      (res : Pregen.PregenResult) (prog : Pregen.Progress)
      (acts : List (Pregen.PregenItem × Pregen.ItemAction)),
      p ∈ st.failCache →
      (∀ it a, (it, a) ∈ acts → it.path = p → a = Pregen.ItemAction.skipFailed) →
      ∀ it a,
        (it, a) ∈ (Pregen.pregenGo env clock stop total batches bIdx cIdx st res prog acts).2.2.2.2 →
        it.path = p → a = Pregen.ItemAction.skipFailed := by
  intro batches
  induction batches with
  | nil => intro bIdx cIdx st res prog acts _ hinv it a hmem hp; exact hinv it a hmem hp
  | cons b bs ih =>
    intro bIdx cIdx st res prog acts hp hinv it a hmem hpath
    have hp2 : p ∈ (Pregen.runBatch env st res b).1.failCache :=
      runBatch_mono env b st res p hp
    have hinv2 : ∀ it a, (it, a) ∈ acts ++ (Pregen.runBatch env st res b).2.2 →
        it.path = p → a = Pregen.ItemAction.skipFailed := by
      intro it2 a2 hm2 hp3
      rcases List.mem_append.mp hm2 with hm2 | hm2
      · exact hinv it2 a2 hm2 hp3
      · exact runBatch_skipFailed env p b st res hp it2 a2 hm2 hp3
    simp only [Pregen.pregenGo] at hmem
    by_cases h1 : stop cIdx = true
    · simp only [h1, if_pos] at hmem
      exact hinv it a hmem hpath
    · simp only [h1, Bool.false_eq_true, reduceIte] at hmem
      by_cases h2 : bs.isEmpty = true
      · simp only [h2, if_pos] at hmem
        exact ih _ _ _ _ _ _ hp2 hinv2 it a hmem hpath
      · simp only [h2, Bool.false_eq_true, reduceIte] at hmem
        by_cases h3 : stop (cIdx + 1) = true
        · simp only [h3, if_pos] at hmem
          exact hinv2 it a hmem hpath
        · simp only [h3, Bool.false_eq_true, reduceIte] at hmem
          exact ih _ _ _ _ _ _ hp2 hinv2 it a hmem hpath

/-- Helper: a completed loop's published progress is the `finalize` block
applied to its returned counters. -/
theorem pregenGo_completion (env : Pregen.GenEnv) (clock : Pregen.ClockEnv)
    (stop : Nat → Bool) (total : Nat) :
    ∀ (batches : List (List Pregen.PregenItem)) (bIdx cIdx : Nat) (st : Pregen.CacheState)
      (res : Pregen.PregenResult) (prog : Pregen.Progress)
      (acts : List (Pregen.PregenItem × Pregen.ItemAction)),
      (Pregen.pregenGo env clock stop total batches bIdx cIdx st res prog acts).2.2.2.1 = false →
      ∃ pf, (Pregen.pregenGo env clock stop total batches bIdx cIdx st res prog acts).2.2.1
        = Pregen.finalize clock
            (Pregen.pregenGo env clock stop total batches bIdx cIdx st res prog acts).1 pf := by
  intro batches
  induction batches with
  | nil => intro bIdx cIdx st res prog acts _; exact ⟨prog, rfl⟩
  | cons b bs ih =>
    intro bIdx cIdx st res prog acts hab
    simp only [Pregen.pregenGo] at hab ⊢
    by_cases h1 : stop cIdx = true
    · simp only [h1, if_pos] at hab
      exact Bool.noConfusion hab
    · simp only [h1, Bool.false_eq_true, reduceIte] at hab ⊢
      by_cases h2 : bs.isEmpty = true
      · simp only [h2, if_pos] at hab ⊢
        exact ih _ _ _ _ _ _ hab
      · simp only [h2, Bool.false_eq_true, reduceIte] at hab ⊢
        by_cases h3 : stop (cIdx + 1) = true
        · simp only [h3, if_pos] at hab
          exact Bool.noConfusion hab
        · simp only [h3, Bool.false_eq_true, reduceIte] at hab ⊢
          exact ih _ _ _ _ _ _ hab

/-- Helper: on a stop-signal abort the loop returns the progress it was
carrying, whose `running` flag and missing finish stamp are preserved by
every per-batch update. -/
theorem pregenGo_abort_prog (env : Pregen.GenEnv) (clock : Pregen.ClockEnv)
    (stop : Nat → Bool) (total : Nat) :
    ∀ (batches : List (List Pregen.PregenItem)) (bIdx cIdx : Nat) (st : Pregen.CacheState)
      (res : Pregen.PregenResult) (prog : Pregen.Progress)
      (acts : List (Pregen.PregenItem × Pregen.ItemAction)),
      prog.running = true → prog.finishedAt = none →
      (Pregen.pregenGo env clock stop total batches bIdx cIdx st res prog acts).2.2.2.1 = true →
      (Pregen.pregenGo env clock stop total batches bIdx cIdx st res prog acts).2.2.1.running = true
      ∧ (Pregen.pregenGo env clock stop total batches bIdx cIdx st res prog acts).2.2.1.finishedAt
          = none := by
  intro batches
  induction batches with
  | nil =>
    intro bIdx cIdx st res prog acts _ _ hab
    simp only [Pregen.pregenGo] at hab
    exact Bool.noConfusion hab
  | cons b bs ih =>
    intro bIdx cIdx st res prog acts hr hf hab
    have hr1 : (Pregen.batchUpdate clock bIdx total (Pregen.runBatch env st res b).2.1
        prog).running = true := hr
    have hf1 : (Pregen.batchUpdate clock bIdx total (Pregen.runBatch env st res b).2.1
        prog).finishedAt = none := hf
    simp only [Pregen.pregenGo] at hab ⊢
    by_cases h1 : stop cIdx = true
    · simp only [h1, if_pos]
      exact ⟨hr, hf⟩
    · simp only [h1, Bool.false_eq_true, reduceIte] at hab ⊢
      by_cases h2 : bs.isEmpty = true
      · simp only [h2, if_pos] at hab ⊢
        exact ih _ _ _ _ _ _ hr1 hf1 hab
      · simp only [h2, Bool.false_eq_true, reduceIte] at hab ⊢
        by_cases h3 : stop (cIdx + 1) = true
        · simp only [h3, if_pos]
          exact ⟨hr1, hf1⟩
        · simp only [h3, Bool.false_eq_true, reduceIte] at hab ⊢
          exact ih _ _ _ _ _ _ hr1 hf1 hab

/-- Helper: the loop aborts exactly when the stop signal is up at one of
the checks it performs (numbered from `cIdx`; a run over `n` batches
checks before each batch and during each of the `n - 1` sleeps). -/
theorem pregenGo_abort_iff (env : Pregen.GenEnv) (clock : Pregen.ClockEnv)
    (stop : Nat → Bool) (total : Nat) :
    ∀ (batches : List (List Pregen.PregenItem)) (bIdx cIdx : Nat) (st : Pregen.CacheState)
      (res : Pregen.PregenResult) (prog : Pregen.Progress)
      (acts : List (Pregen.PregenItem × Pregen.ItemAction)),
      ((Pregen.pregenGo env clock stop total batches bIdx cIdx st res prog acts).2.2.2.1 = true
        ↔ ∃ k, cIdx ≤ k ∧ k < cIdx + Pregen.checksFor batches.length ∧ stop k = true) := by
  intro batches
  induction batches with
  | nil =>
    intro bIdx cIdx st res prog acts
    simp only [Pregen.pregenGo, Pregen.checksFor, List.length_nil, reduceIte]
    constructor
    · intro h; cases h
    · rintro ⟨k, h1, h2, _⟩; omega
  | cons b bs ih =>
    intro bIdx cIdx st res prog acts
    have hlen : Pregen.checksFor (b :: bs).length = 2 * bs.length + 1 := by
      simp only [Pregen.checksFor, List.length_cons]
      rw [if_neg (by omega)]
      omega
    rw [hlen]
    simp only [Pregen.pregenGo]
    by_cases h1 : stop cIdx = true
    · simp only [h1, if_pos]
      constructor
      · intro _; exact ⟨cIdx, le_refl _, by omega, h1⟩
      · intro _; trivial
    · simp only [h1, Bool.false_eq_true, reduceIte]
      by_cases h2 : bs.isEmpty = true
      · have hbs : bs = [] := List.isEmpty_iff.mp h2
        subst hbs
        simp only [h2, if_pos, Pregen.pregenGo]
        constructor
        · intro h; cases h
        · rintro ⟨k, hk1, hk2, hk3⟩
          have : k = cIdx := by simp at hk2; omega
          subst this
          exact absurd hk3 h1
      · have hbs : 0 < bs.length := by
          cases bs with
          | nil => simp at h2
          | cons x xs => simp
        simp only [h2, Bool.false_eq_true, reduceIte]
        by_cases h3 : stop (cIdx + 1) = true
        · simp only [h3, if_pos]
          constructor
          · intro _; exact ⟨cIdx + 1, by omega, by omega, h3⟩
          · intro _; trivial
        · simp only [h3, Bool.false_eq_true, reduceIte]
          rw [ih]
          have hcf : Pregen.checksFor bs.length = 2 * bs.length - 1 := by
            simp only [Pregen.checksFor]
            rw [if_neg (by omega)]
          rw [hcf]
          constructor
          · rintro ⟨k, hk1, hk2, hk3⟩
            exact ⟨k, by omega, by omega, hk3⟩
          · rintro ⟨k, hk1, hk2, hk3⟩
            by_cases hk4 : k = cIdx
            · subst hk4; exact absurd hk3 h1
            · by_cases hk5 : k = cIdx + 1
              · subst hk5; exact absurd hk3 h3
              · exact ⟨k, by omega, by omega, hk3⟩

/-- Helper: on abort the loop returns the counters and cache state of the
batches completed before the stop was observed. -/
theorem pregenGo_abort_partial (env : Pregen.GenEnv) (clock : Pregen.ClockEnv)
    (stop : Nat → Bool) (total : Nat) :
    ∀ (batches : List (List Pregen.PregenItem)) (bIdx cIdx : Nat) (st : Pregen.CacheState)
      (res : Pregen.PregenResult) (prog : Pregen.Progress)
      (acts : List (Pregen.PregenItem × Pregen.ItemAction)),
      (Pregen.pregenGo env clock stop total batches bIdx cIdx st res prog acts).2.2.2.1 = true →
      ∃ j, j ≤ batches.length
        ∧ (Pregen.pregenGo env clock stop total batches bIdx cIdx st res prog acts).1
            = (Pregen.runBatches env st res (batches.take j)).2
        ∧ (Pregen.pregenGo env clock stop total batches bIdx cIdx st res prog acts).2.1
            = (Pregen.runBatches env st res (batches.take j)).1 := by
  intro batches
  induction batches with
  | nil =>
    intro bIdx cIdx st res prog acts hab
    simp only [Pregen.pregenGo] at hab
    exact Bool.noConfusion hab
  | cons b bs ih =>
    intro bIdx cIdx st res prog acts hab
    simp only [Pregen.pregenGo] at hab ⊢
    by_cases h1 : stop cIdx = true
    · simp only [h1, if_pos]
      exact ⟨0, Nat.zero_le _, rfl, rfl⟩
    · simp only [h1, Bool.false_eq_true, reduceIte] at hab ⊢
      by_cases h2 : bs.isEmpty = true
      · simp only [h2, if_pos] at hab ⊢
        obtain ⟨j, hj1, hj2, hj3⟩ := ih _ _ _ _ _ _ hab
        refine ⟨j + 1, by simp; omega, ?_, ?_⟩
        · rw [hj2]; rfl
        · rw [hj3]; rfl
      · simp only [h2, Bool.false_eq_true, reduceIte] at hab ⊢
        by_cases h3 : stop (cIdx + 1) = true
        · simp only [h3, if_pos]
          refine ⟨1, by simp, rfl, rfl⟩
        · simp only [h3, Bool.false_eq_true, reduceIte] at hab ⊢
          obtain ⟨j, hj1, hj2, hj3⟩ := ih _ _ _ _ _ _ hab
          refine ⟨j + 1, by simp; omega, ?_, ?_⟩
          · rw [hj2]; rfl
          · rw [hj3]; rfl

set_option maxRecDepth 10000 in
/-- C5: every path that fails generation during a pregeneration run is
recorded in the FailureMemo and counted in `Errors` (the error count is
exactly the number of failed generations); the memo is append-only across
runs, and an item whose path is memoized at the start of a run is counted
as skipped and generation is never attempted for it.  Concretely, over
100 items with only `p37` corrupt, a first run ends with
`Generated = 99, Skipped = 0, Errors = 1` and memoizes exactly `p37`, and
a second run over the same items ends with `Skipped = 100, Generated = 0`. -/
theorem pregen_failure_memo (env : Pregen.GenEnv) (clock : Pregen.ClockEnv) (stop : Nat → Bool)
    (items : List Pregen.PregenItem) (batchSize : Nat) (st : Pregen.CacheState) :
    (∀ it a,
        (it, a) ∈ (Pregen.PregenSmallThumbnails env clock stop items batchSize st).2.2.2.2 →
        a = Pregen.ItemAction.genFailed →
        it.path ∈ (Pregen.PregenSmallThumbnails env clock stop items batchSize st).2.1.failCache)
    ∧ (Pregen.PregenSmallThumbnails env clock stop items batchSize st).1.errors
        = ((Pregen.PregenSmallThumbnails env clock stop items batchSize st).2.2.2.2.filter
            fun x => decide (x.2 = Pregen.ItemAction.genFailed)).length
    ∧ (∀ p, p ∈ st.failCache →
        p ∈ (Pregen.PregenSmallThumbnails env clock stop items batchSize st).2.1.failCache)
    ∧ (∀ p, p ∈ st.failCache →
        ∀ it a,
          (it, a) ∈ (Pregen.PregenSmallThumbnails env clock stop items batchSize st).2.2.2.2 →
          it.path = p → a = Pregen.ItemAction.skipFailed)
    ∧ Pregen.demoRun1.1 = ⟨99, 0, 1⟩
    ∧ Pregen.demoRun1.2.1.failCache = ["p37"]
    ∧ Pregen.demoRun2.1 = ⟨0, 100, 0⟩ := by
  refine ⟨?_, ?_, ?_, ?_, by decide, by decide, by decide⟩
  · intro it a hmem ha
    exact pregenGo_acts_genFailed env clock stop items.length
      (Pregen.chunks batchSize items) 0 0 st ⟨0, 0, 0⟩ _ []
      (fun it2 a2 hm2 _ => by simp at hm2) it a hmem ha
  · exact pregenGo_errors env clock stop items.length
      (Pregen.chunks batchSize items) 0 0 st ⟨0, 0, 0⟩ _ [] rfl
  · intro p hp
    exact pregenGo_mono env clock stop items.length
      (Pregen.chunks batchSize items) 0 0 st ⟨0, 0, 0⟩ _ [] p hp
  · intro p hp it a hmem hpath
    exact pregenGo_skipmemo env clock stop items.length p
      (Pregen.chunks batchSize items) 0 0 st ⟨0, 0, 0⟩ _ []
      hp (fun it2 a2 hm2 _ => by simp at hm2) it a hmem hpath

/-- Witness for C5: a path already in the memo file survives a (trivial)
run untouched. -/
theorem pregen_failure_memo_witness :
    "q" ∈ (Pregen.PregenSmallThumbnails Pregen.demoGenEnv Pregen.demoClock (fun _ => false)
        [] 10 ⟨["q"], []⟩).2.1.failCache :=
  (pregen_failure_memo Pregen.demoGenEnv Pregen.demoClock (fun _ => false)
    [] 10 ⟨["q"], []⟩).2.2.1 "q" (by decide)

/-- C9: the pregeneration loop checks the stop signal before each batch
and during each inter-batch delay; it aborts exactly when the signal is up
at one of those checks, and then it returns immediately with the partial
result of the batches completed so far while the published progress keeps
`Running = true` with no finish stamp (no distinct stopped state).  Only
on normal completion is `Running` cleared, `FinishedAt` stamped,
`EtaSeconds` reset to zero, and the final rate computed from the processed
count and the elapsed time. -/
theorem pregen_stop_semantics (env : Pregen.GenEnv) (clock : Pregen.ClockEnv) (stop : Nat → Bool)
    (items : List Pregen.PregenItem) (batchSize : Nat) (st : Pregen.CacheState) :
    ((Pregen.PregenSmallThumbnails env clock stop items batchSize st).2.2.2.1 = true →
      (Pregen.PregenSmallThumbnails env clock stop items batchSize st).2.2.1.running = true
      ∧ (Pregen.PregenSmallThumbnails env clock stop items batchSize st).2.2.1.finishedAt = none)
    ∧ ((Pregen.PregenSmallThumbnails env clock stop items batchSize st).2.2.2.1 = false →
      (Pregen.PregenSmallThumbnails env clock stop items batchSize st).2.2.1.running = false
      ∧ (Pregen.PregenSmallThumbnails env clock stop items batchSize st).2.2.1.finishedAt
          = some clock.finishTime
      ∧ (Pregen.PregenSmallThumbnails env clock stop items batchSize st).2.2.1.etaSeconds = 0)
    ∧ ((Pregen.PregenSmallThumbnails env clock stop items batchSize st).2.2.2.1 = false →
      0 < clock.finishElapsed →
      (Pregen.PregenSmallThumbnails env clock stop items batchSize st).2.2.1.itemsPerSec
        = (((Pregen.PregenSmallThumbnails env clock stop items batchSize st).1.generated
            + (Pregen.PregenSmallThumbnails env clock stop items batchSize st).1.skipped
            + (Pregen.PregenSmallThumbnails env clock stop items batchSize st).1.errors : Nat) : ℚ)
          / clock.finishElapsed)
    ∧ ((Pregen.PregenSmallThumbnails env clock stop items batchSize st).2.2.2.1 = true
        ↔ ∃ k, k < Pregen.checksFor (Pregen.chunks batchSize items).length ∧ stop k = true)
    ∧ ((Pregen.PregenSmallThumbnails env clock stop items batchSize st).2.2.2.1 = true →
      ∃ j, j ≤ (Pregen.chunks batchSize items).length
        ∧ (Pregen.PregenSmallThumbnails env clock stop items batchSize st).1
            = (Pregen.runBatches env st ⟨0, 0, 0⟩ ((Pregen.chunks batchSize items).take j)).2
        ∧ (Pregen.PregenSmallThumbnails env clock stop items batchSize st).2.1
            = (Pregen.runBatches env st ⟨0, 0, 0⟩ ((Pregen.chunks batchSize items).take j)).1) := by
  refine ⟨?_, ?_, ?_, ?_, ?_⟩
  · intro hab
    exact pregenGo_abort_prog env clock stop items.length
      (Pregen.chunks batchSize items) 0 0 st ⟨0, 0, 0⟩ _ [] rfl rfl hab
  · intro hab
    obtain ⟨pf, heq⟩ := pregenGo_completion env clock stop items.length
      (Pregen.chunks batchSize items) 0 0 st ⟨0, 0, 0⟩ _ [] hab
    refine ⟨?_, ?_, ?_⟩ <;> rw [show (Pregen.PregenSmallThumbnails env clock stop items
      batchSize st).2.2.1 = _ from heq] <;> rfl
  · intro hab hfe
    obtain ⟨pf, heq⟩ := pregenGo_completion env clock stop items.length
      (Pregen.chunks batchSize items) 0 0 st ⟨0, 0, 0⟩ _ [] hab
    rw [show (Pregen.PregenSmallThumbnails env clock stop items
      batchSize st).2.2.1 = _ from heq]
    simp only [Pregen.finalize]
    rw [if_pos hfe]
    rfl
  · have h := pregenGo_abort_iff env clock stop items.length
      (Pregen.chunks batchSize items) 0 0 st ⟨0, 0, 0⟩
      { running := true, total := items.length, generated := 0, skipped := 0, errors := 0
        itemsPerSec := 0, etaSeconds := 0, startedAt := some clock.start, finishedAt := none } []
    rw [show (Pregen.PregenSmallThumbnails env clock stop items batchSize st).2.2.2.1
      = _ from rfl]
    constructor
    · intro hab
      obtain ⟨k, _, hk2, hk3⟩ := h.mp hab
      exact ⟨k, by omega, hk3⟩
    · rintro ⟨k, hk1, hk2⟩
      exact h.mpr ⟨k, Nat.zero_le _, by omega, hk2⟩
  · intro hab
    exact pregenGo_abort_partial env clock stop items.length
      (Pregen.chunks batchSize items) 0 0 st ⟨0, 0, 0⟩ _ [] hab

/-- Witness for C9: with the stop signal up from the start, a two-item
run returns with `Running` still true and no finish stamp. -/
theorem pregen_stop_semantics_witness :
    (Pregen.PregenSmallThumbnails Pregen.demoGenEnv Pregen.demoClock (fun _ => true)
        [⟨"a", "image"⟩, ⟨"b", "image"⟩] 1 ⟨[], []⟩).2.2.1.running = true
    ∧ (Pregen.PregenSmallThumbnails Pregen.demoGenEnv Pregen.demoClock (fun _ => true)
        [⟨"a", "image"⟩, ⟨"b", "image"⟩] 1 ⟨[], []⟩).2.2.1.finishedAt = none :=
  (pregen_stop_semantics Pregen.demoGenEnv Pregen.demoClock (fun _ => true)
    [⟨"a", "image"⟩, ⟨"b", "image"⟩] 1 ⟨[], []⟩).1 (by decide)

end Photog
